import Mathlib

/-!
Verification of the Gaussian-elimination puzzle engine (`src/matrix.py`).

The embedding models Python numbers exactly: a Python `int` is an `Int`, a
Python `float` is idealized as an exact rational, carried as an unreduced
pair of an integer numerator and a positive natural denominator (the engine
immediately canonicalizes every written cell to at most two decimal places,
which is precisely the floating-point-noise-suppression contract of the
spec, so exact rational arithmetic is the faithful idealization).
`NumType` distinguishes the two Python types because the engine treats them
differently: `_clean_number` rounds only `float` instances, `/` always
returns a `float`, and `+ - *` return `int` only when both operands are
`int`.
-/

namespace GaussPuzzle

/-- A Python number: `int n`, or `float n d` standing for the exact value
`n / d` with `d` intended positive (all constructors in this development
produce positive denominators). -/
inductive PyNum where
  | int : Int → PyNum
  | float : Int → Nat → PyNum
deriving DecidableEq, Repr

/-- Numerator/denominator view of a Python number. -/
def PyNum.toPair : PyNum → Int × Nat
  | .int n => (n, 1)
  | .float n d => (n, d)

/-- The exact rational value of a Python number. -/
def PyNum.toQ : PyNum → ℚ
  | .int n => (n : ℚ)
  | .float n d => (n : ℚ) / (d : ℚ)

/-- Well-formedness: `float` denominators are positive.  Every number built
by the embedded operations satisfies this. -/
def PyNum.wf : PyNum → Prop
  | .int _ => True
  | .float _ d => 0 < d

instance : DecidablePred PyNum.wf := by
  intro p
  cases p with
  | int n => exact isTrue trivial
  | float n d => exact Nat.decLt 0 d

/-- Python `+`: two `int`s give an `int`, otherwise a `float`. -/
def PyNum.add (a b : PyNum) : PyNum :=
  match a, b with
  | .int x, .int y => .int (x + y)
  | _, _ =>
    let (n1, d1) := a.toPair
    let (n2, d2) := b.toPair
    .float (n1 * d2 + n2 * d1) (d1 * d2)

/-- Python `-`: two `int`s give an `int`, otherwise a `float`. -/
def PyNum.sub (a b : PyNum) : PyNum :=
  match a, b with
  | .int x, .int y => .int (x - y)
  | _, _ =>
    let (n1, d1) := a.toPair
    let (n2, d2) := b.toPair
    .float (n1 * d2 - n2 * d1) (d1 * d2)

/-- Python `*`: two `int`s give an `int`, otherwise a `float`. -/
def PyNum.mul (a b : PyNum) : PyNum :=
  match a, b with
  | .int x, .int y => .int (x * y)
  | _, _ =>
    let (n1, d1) := a.toPair
    let (n2, d2) := b.toPair
    .float (n1 * n2) (d1 * d2)

/-- Python unary `-`. -/
def PyNum.neg : PyNum → PyNum
  | .int n => .int (-n)
  | .float n d => .float (-n) d

/-- Python `/` (true division): always a `float`.  The caller is responsible
for the `ZeroDivisionError` check, exactly as in the evaluator below. -/
def PyNum.div (a b : PyNum) : PyNum :=
  let (n1, d1) := a.toPair
  let (n2, d2) := b.toPair
  if 0 ≤ n2 then .float (n1 * d2) (d1 * n2.toNat)
  else .float (-(n1 * d2)) (d1 * (-n2).toNat)

/-- Python value comparison with zero (`x == 0`); on well-formed numbers this
is exactly `toQ = 0`. -/
def PyNum.isZero (a : PyNum) : Bool := a.toPair.1 == 0

/-- Python value comparison with one (`x == 1`); on well-formed numbers this
is exactly `toQ = 1`. -/
def PyNum.isOne (a : PyNum) : Bool := a.toPair.1 == (a.toPair.2 : Int)

/-- Round-half-to-even of the rational `n / d` (`d` positive) to an integer:
the tie-breaking used by Python `round`. -/
def roundHalfEven (n : Int) (d : Nat) : Int :=
  let f := n.fdiv d
  let r := n - f * d
  if 2 * r < d then f
  else if (d : Int) < 2 * r then f + 1
  else if f % 2 = 0 then f else f + 1

/-- Python `round(x, 2)`: an `int` is returned unchanged, a `float` is
rounded to the nearest hundredth (value `k / 100`). -/
def pyRound2 : PyNum → PyNum
  | .int n => .int n
  | .float n d => .float (roundHalfEven (n * 100) d) 100

/-- `Matrix._clean_number` (src/matrix.py:133): non-`float`s pass through;
a `float` is rounded to two decimals, then represented as an `int` when the
rounded value is integral.  (The trailing-zero strip in the source changes
the printed representation, not the value.) -/
def cleanNumber : PyNum → PyNum
  | .int n => .int n
  | .float n d =>
    let k := roundHalfEven (n * 100) d
    if k % 100 = 0 then .int (k / 100) else .float k 100

/-- `Matrix._clean_row` (src/matrix.py:145). -/
def cleanRow (row : List PyNum) : List PyNum := row.map cleanNumber

/-- The puzzle state (class `Matrix`, src/matrix.py:118).  The redundant
interleaved display list `self.matrix` built in `__init__` is omitted: it
aliases the initial rows, is never read by `update`, `is_rref` or
`find_gods_number`, and becomes stale after the first update. -/
structure Matrix where
  size : Nat
  values : List (List PyNum)
  outputs : List PyNum
  moves_count : Nat
deriving DecidableEq, Repr

/-- Outcome of the `Matrix` constructor: on mismatched lengths the source
prints `matrix not correctly sized` and calls `exit()`, terminating the
hosting process (src/matrix.py:120). -/
inductive InitResult where
  | ok : Matrix → InitResult
  | processExit : String → InitResult
deriving DecidableEq, Repr

/-- `Matrix.__init__` (src/matrix.py:119).  Note that only the outer list
lengths are validated; ragged inner rows are accepted. -/
def Matrix.init (size : Nat) (values : List (List PyNum)) (outputs : List PyNum) :
    InitResult :=
  if values.length = size ∧ outputs.length = size then
    .ok ⟨size, values, outputs, 0⟩
  else
    .processExit "matrix not correctly sized"

/-! ### Character-level string operations

The source manipulates the transformation text with `str.upper`,
`str.split`, `str.strip`, `str.startswith` and `int()`.  These are modeled
on the character list of the string so that every theorem evaluates in the
kernel. -/

/-- ASCII upper-casing of one character (`str.upper` on the engine's ASCII
transformation strings). -/
def upChar (c : Char) : Char :=
  if 'a' ≤ c ∧ c ≤ 'z' then Char.ofNat (c.toNat - 32) else c

/-- `str.upper`. -/
def upStr (s : List Char) : List Char := s.map upChar

/-- `str.split` on one separator character: splits on every occurrence. -/
def splitChar (sep : Char) (s : List Char) : List (List Char) :=
  match s with
  | [] => [[]]
  | c :: rest =>
    let r := splitChar sep rest
    if c = sep then [] :: r
    else
      match r with
      | [] => [[c]]
      | h :: t => (c :: h) :: t

/-- Python whitespace for `str.strip`. -/
def isPySpace (c : Char) : Bool := c = ' ' ∨ c = '\t' ∨ c = '\n' ∨ c = '\r'

/-- `str.strip`. -/
def stripStr (s : List Char) : List Char :=
  ((s.dropWhile isPySpace).reverse.dropWhile isPySpace).reverse

/-- Digit list to number. -/
def digitsToNat (ds : List Char) : Nat :=
  ds.foldl (fun a c => a * 10 + (c.toNat - 48)) 0

/-- Python `int(s)` on a string: optional surrounding whitespace, optional
sign, then at least one digit; anything else raises `ValueError`. -/
def pyInt? (s : List Char) : Option Int :=
  let t := stripStr s
  match t with
  | '-' :: ds => if ds ≠ [] ∧ ds.all Char.isDigit then some (-(digitsToNat ds : Int)) else none
  | '+' :: ds => if ds ≠ [] ∧ ds.all Char.isDigit then some (digitsToNat ds : Int) else none
  | ds => if ds ≠ [] ∧ ds.all Char.isDigit then some (digitsToNat ds : Int) else none

/-! ### The transformation expression language

`Matrix.update` evaluates the right-hand side of the assignment with
Python `eval` over a namespace in which `R1..Rsize` are bound.  The
embedding parses the documented arithmetic grammar

  expr   := term (("+" | "-") term)*
  term   := factor (("*" | "/") factor)*
  factor := NAME | NUMBER | "(" expr ")" | "-" factor

and evaluates the resulting tree twice: once in the row domain (names bound
to `RowOp` row vectors) and once in the scalar domain (names bound to the
corresponding `augmented` entries), mirroring the two `eval` calls of the
source.  Exception classes raised during parsing or evaluation are modeled
by `PyExc`; the `TypeError` messages are the ones raised verbatim by the
`RowOp` operator methods in the source. -/

/-- Python exceptions that the two `eval` calls can raise. -/
inductive PyExc where
  | zeroDivision : PyExc
  | typeErr : String → PyExc
  | nameErr : String → PyExc
  | syntaxErr : PyExc
  | unaryNegRow : PyExc
deriving DecidableEq, Repr

/-- Tokens of the expression language. -/
inductive Tok where
  | num : PyNum → Tok
  | name : String → Tok
  | plus | minus | star | slash | lparen | rparen : Tok
deriving DecidableEq, Repr

/-- Identifier-continuation characters. -/
def isIdentChar (c : Char) : Bool := c.isAlphanum ∨ c = '_'

/-- Tokenizer worker (the lexical part of Python `eval`): numeric literals
are `digit+ ("." digit*)?`, identifiers are `alpha identchar*`; any other
non-space character is a `SyntaxError`.  The fuel argument only bounds the
recursion (every step consumes at least one character, so a fuel of one
more than the input length never runs out). -/
def tokenizeF : Nat → List Char → Except PyExc (List Tok)
  | 0, _ => .error .syntaxErr
  | _ + 1, [] => .ok []
  | fuel + 1, c :: cs =>
    if isPySpace c then tokenizeF fuel cs
    else if c = '+' then do pure (.plus :: (← tokenizeF fuel cs))
    else if c = '-' then do pure (.minus :: (← tokenizeF fuel cs))
    else if c = '*' then do pure (.star :: (← tokenizeF fuel cs))
    else if c = '/' then do pure (.slash :: (← tokenizeF fuel cs))
    else if c = '(' then do pure (.lparen :: (← tokenizeF fuel cs))
    else if c = ')' then do pure (.rparen :: (← tokenizeF fuel cs))
    else if c.isDigit then
      let (ds, rest) := List.span Char.isDigit (c :: cs)
      if rest.head? = some '.' then
        let (fs, rest2) := List.span Char.isDigit rest.tail
        do pure (.num (.float (digitsToNat ds * 10 ^ fs.length + digitsToNat fs) (10 ^ fs.length)) :: (← tokenizeF fuel rest2))
      else do pure (.num (.int (digitsToNat ds)) :: (← tokenizeF fuel rest))
    else if c.isAlpha then
      let (ident, rest) := List.span isIdentChar (c :: cs)
      do pure (.name (String.mk ident) :: (← tokenizeF fuel rest))
    else .error .syntaxErr

/-- Tokenize a whole character list. -/
def tokenize (s : List Char) : Except PyExc (List Tok) :=
  tokenizeF (s.length + 1) s

/-- Expression tree of a transformation right-hand side (spec section 4.3:
row references and other names, numeric literals, the four binary operators
and unary negation). -/
inductive Expr where
  | num : PyNum → Expr
  | name : String → Expr
  | neg : Expr → Expr
  | add : Expr → Expr → Expr
  | sub : Expr → Expr → Expr
  | mul : Expr → Expr → Expr
  | div : Expr → Expr → Expr
deriving DecidableEq, Repr

mutual

/-- `factor := NAME | NUMBER | "(" expr ")" | "-" factor`. -/
def parseFactor : Nat → List Tok → Except PyExc (Expr × List Tok)
  | 0, _ => .error .syntaxErr
  | fuel + 1, ts =>
    match ts with
    | .minus :: rest => do
      let (e, r) ← parseFactor fuel rest
      .ok (.neg e, r)
    | .num p :: rest => .ok (.num p, rest)
    | .name s :: rest => .ok (.name s, rest)
    | .lparen :: rest => do
      let (e, r) ← parseExpr fuel rest
      match r with
      | .rparen :: r2 => .ok (e, r2)
      | _ => .error .syntaxErr
    | _ => .error .syntaxErr

/-- `term := factor (("*" | "/") factor)*`, left associated. -/
def parseTerm : Nat → List Tok → Except PyExc (Expr × List Tok)
  | 0, _ => .error .syntaxErr
  | fuel + 1, ts => do
    let (e, r) ← parseFactor fuel ts
    parseTermTail fuel e r

def parseTermTail : Nat → Expr → List Tok → Except PyExc (Expr × List Tok)
  | 0, _, _ => .error .syntaxErr
  | fuel + 1, acc, ts =>
    match ts with
    | .star :: rest => do
      let (e, r) ← parseFactor fuel rest
      parseTermTail fuel (.mul acc e) r
    | .slash :: rest => do
      let (e, r) ← parseFactor fuel rest
      parseTermTail fuel (.div acc e) r
    | _ => .ok (acc, ts)

/-- `expr := term (("+" | "-") term)*`, left associated. -/
def parseExpr : Nat → List Tok → Except PyExc (Expr × List Tok)
  | 0, _ => .error .syntaxErr
  | fuel + 1, ts => do
    let (e, r) ← parseTerm fuel ts
    parseExprTail fuel e r

def parseExprTail : Nat → Expr → List Tok → Except PyExc (Expr × List Tok)
  | 0, _, _ => .error .syntaxErr
  | fuel + 1, acc, ts =>
    match ts with
    | .plus :: rest => do
      let (e, r) ← parseTerm fuel rest
      parseExprTail fuel (.add acc e) r
    | .minus :: rest => do
      let (e, r) ← parseTerm fuel rest
      parseExprTail fuel (.sub acc e) r
    | _ => .ok (acc, ts)

end

/-- Parse a complete right-hand side; trailing tokens are a `SyntaxError`
(Python `eval` compiles the full string as a single expression).  This
parser implements exactly the documented transformation grammar (spec
sections 3 and 4.3): row references, numeric literals, the four binary
operators, unary minus and parentheses.  The source's raw `eval`
(src/matrix.py:256, 272) also accepts expression forms outside this
grammar that survive `upper()` and the `=` split — dict displays,
subscription, tuples, `**`, exponent literals — which this function
reports as syntax errors.  The embedding is therefore exact on texts
inside the grammar, and theorems whose truth depends on the behaviour of
out-of-grammar texts are explicitly scoped by `parseExprString` success
hypotheses. -/
def parseExprString (s : List Char) : Except PyExc Expr := do
  let ts ← tokenize s
  let (e, rest) ← parseExpr (10 * ts.length + 10) ts
  match rest with
  | [] => .ok e
  | _ => .error .syntaxErr

/-- The row-reference namespace: both `eval` calls bind exactly the names
`R1 .. Rsize` (src/matrix.py:250 and 267); `lookupRef size s` is the index
`i` with `s = R(i+1)`, if any. -/
def lookupRef (size : Nat) (s : String) : Option Nat :=
  (List.range size).find? (fun i => s == "R" ++ toString (i + 1))

/-- A value of the row-domain evaluation: a plain number or a `RowOp`
row vector. -/
inductive RVal where
  | num : PyNum → RVal
  | row : List PyNum → RVal
deriving DecidableEq, Repr

/-- Row-domain evaluation (first `eval` in `Matrix.update`,
src/matrix.py:256): names resolve to `RowOp` wrappers of the coefficient
rows, and the `RowOp` dunder methods define the operator semantics,
including the `TypeError` messages raised in the source
(src/matrix.py:207-247).  Operands evaluate left to right, as in Python. -/
def evalRow (vals : List (List PyNum)) (size : Nat) : Expr → Except PyExc RVal
  | .num p => .ok (.num p)
  | .name s =>
    match lookupRef size s with
    | some i => .ok (.row (vals.getD i []))
    | none => .error (.nameErr s)
  | .neg e => do
    match ← evalRow vals size e with
    | .num p => .ok (.num p.neg)
    | .row _ => .error .unaryNegRow
  | .add e1 e2 => do
    let v1 ← evalRow vals size e1
    let v2 ← evalRow vals size e2
    match v1, v2 with
    | .num a, .num b => .ok (.num (a.add b))
    | .row l1, .row l2 => .ok (.row (List.zipWith PyNum.add l1 l2))
    | _, _ => .error (.typeErr "Can only add rows to rows")
  | .sub e1 e2 => do
    let v1 ← evalRow vals size e1
    let v2 ← evalRow vals size e2
    match v1, v2 with
    | .num a, .num b => .ok (.num (a.sub b))
    | .row l1, .row l2 => .ok (.row (List.zipWith PyNum.sub l1 l2))
    | _, _ => .error (.typeErr "Can only subtract rows from rows")
  | .mul e1 e2 => do
    let v1 ← evalRow vals size e1
    let v2 ← evalRow vals size e2
    match v1, v2 with
    | .num a, .num b => .ok (.num (a.mul b))
    | .row l, .num b => .ok (.row (l.map (fun x => x.mul b)))
    | .num a, .row l => .ok (.row (l.map (fun x => x.mul a)))
    | .row _, .row _ => .error (.typeErr "Row can only be multiplied by a scalar")
  | .div e1 e2 => do
    let v1 ← evalRow vals size e1
    let v2 ← evalRow vals size e2
    match v1, v2 with
    | .num a, .num b =>
      if b.isZero then .error .zeroDivision else .ok (.num (a.div b))
    | .row l, .num b =>
      match l with
      | [] => .ok (.row [])
      | _ => if b.isZero then .error .zeroDivision else .ok (.row (l.map (fun x => x.div b)))
    | .num _, .row _ => .error (.typeErr "Cannot divide a scalar by a row")
    | .row _, .row _ => .error (.typeErr "Row can only be divided by a scalar")

/-- Scalar-domain evaluation (second `eval` in `Matrix.update`,
src/matrix.py:272): the same names resolve to the corresponding `augmented`
entries and the operators are ordinary Python arithmetic. -/
def evalScalar (outs : List PyNum) (size : Nat) : Expr → Except PyExc PyNum
  | .num p => .ok p
  | .name s =>
    match lookupRef size s with
    | some i => .ok (outs.getD i (.int 0))
    | none => .error (.nameErr s)
  | .neg e => do
    let p ← evalScalar outs size e
    .ok p.neg
  | .add e1 e2 => do
    let a ← evalScalar outs size e1
    let b ← evalScalar outs size e2
    .ok (a.add b)
  | .sub e1 e2 => do
    let a ← evalScalar outs size e1
    let b ← evalScalar outs size e2
    .ok (a.sub b)
  | .mul e1 e2 => do
    let a ← evalScalar outs size e1
    let b ← evalScalar outs size e2
    .ok (a.mul b)
  | .div e1 e2 => do
    let a ← evalScalar outs size e1
    let b ← evalScalar outs size e2
    if b.isZero then .error .zeroDivision else .ok (a.div b)

/-- The diagnostics `Matrix.update` can print before returning `None`
(src/matrix.py:175-276).  Each constructor corresponds to one `print` site;
`evalErr` and `evalErrOutputs` carry the exception interpolated into
`Error evaluating transformation[ for outputs]: ...`. -/
inductive UpdateErr where
  | invalidFormat : UpdateErr
  | invalidRowRef : UpdateErr
  | invalidRowNumber : UpdateErr
  | outOfBounds : UpdateErr
  | evalErr : PyExc → UpdateErr
  | notARow : UpdateErr
  | evalErrOutputs : PyExc → UpdateErr
deriving DecidableEq, Repr

/-- The header phase of `Matrix.update` (src/matrix.py:180-204): upper-case
the text, split on `=` (exactly two parts required), check the target
starts with `R`, parse its index with `int()`, and range-check it against
`size`.  Returns the 0-based target row and the right-hand side text. -/
def parseHeader (size : Nat) (s : String) : Except UpdateErr (Nat × List Char) :=
  let t := upStr s.data
  match splitChar '=' t with
  | [lhs, rhs] =>
    let targetStr := stripStr lhs
    match targetStr with
    | 'R' :: idxStr =>
      match pyInt? idxStr with
      | some k =>
        if 0 ≤ k - 1 ∧ k - 1 < (size : Int) then .ok ((k - 1).toNat, stripStr rhs)
        else .error .outOfBounds
      | none => .error .invalidRowNumber
    | _ => .error .invalidRowRef
  | _ => .error .invalidFormat

/-- `Matrix.update` (src/matrix.py:175).  The returned pair is the matrix
as the method leaves it together with the diagnostic it prints, if any: the
Python method itself always returns `None`, signalling failures only by
printing.  Faithful to the source, the coefficient row is written as soon
as the row-domain evaluation succeeds (line 258), before the scalar-domain
evaluation runs; `moves_count` is incremented only after both succeed.
(The namespace construction at lines 251 and 268 indexes `values[i]` and
`outputs[i]` for every `i < size`; on a malformed matrix whose lists are
shorter than `size` Python would raise an uncaught `IndexError` there,
which this embedding replaces by empty-row and zero defaults — the
theorems about `update` either hold for arbitrary such defaults or assume
the documented length invariants.)  The right-hand side is evaluated
through `parseExprString`, which covers exactly the documented grammar;
the source's raw `eval` admits further expression forms, collapsed here
into the syntax-error path, so theorems sensitive to out-of-grammar texts
carry explicit parse hypotheses (see the note on `parseExprString`). -/
def Matrix.update (m : Matrix) (s : String) : Matrix × Option UpdateErr :=
  match parseHeader m.size s with
  | .error e => (m, some e)
  | .ok (target, opStr) =>
    match parseExprString opStr with
    | .error e => (m, some (.evalErr e))
    | .ok ast =>
      match evalRow m.values m.size ast with
      | .error e => (m, some (.evalErr e))
      | .ok (.num _) => (m, some .notARow)
      | .ok (.row l) =>
        let values' := m.values.set target (cleanRow l)
        match evalScalar m.outputs m.size ast with
        | .error e => ({ m with values := values' }, some (.evalErrOutputs e))
        | .ok p =>
          ({ m with
              values := values',
              outputs := m.outputs.set target (cleanNumber p),
              moves_count := m.moves_count + 1 }, none)

/-- `Matrix.is_rref` (src/matrix.py:153): the coefficient block equals the
identity under canonical comparison; the augmented column is not
inspected. -/
def Matrix.is_rref (m : Matrix) : Bool :=
  (List.range m.size).all fun i =>
    (List.range m.size).all fun j =>
      let cell := cleanNumber ((m.values.getD i []).getD j (.int 0))
      if i = j then cell.isOne else cell.isZero

/-- Apply a list of transformation strings in order (the player loop /
replaying an estimator script). -/
def applyOps (m : Matrix) (ops : List String) : Matrix :=
  ops.foldl (fun w op => (w.update op).1) m

/-! ### The greedy estimator `find_gods_number` (src/matrix.py:64) -/

/-- Decimal rendering of the value `k / 100` (`k` not a multiple of 100),
matching Python `str` on a float with at most two decimals: minus sign,
integer part, dot, one or two fractional digits with a trailing zero
stripped. -/
def centiStr (k : Int) : String :=
  let sign := if k < 0 then "-" else ""
  let a := k.natAbs
  let ip := a / 100
  let c := a % 100
  if c % 10 = 0 then sign ++ toString ip ++ "." ++ toString (c / 10)
  else if c < 10 then sign ++ toString ip ++ ".0" ++ toString c
  else sign ++ toString ip ++ "." ++ toString c

/-- `format_factor` (src/matrix.py:75): round to two decimals, render
integral values without a fractional part. -/
def formatFactor (p : PyNum) : String :=
  match pyRound2 p with
  | .int n => toString n
  | .float k _ => if k % 100 = 0 then toString (k / 100) else centiStr k

/-- The scaling operation text `R(c+1) = R(c+1) * factor` built at
src/matrix.py:92. -/
def fgnScaleOp (col : Nat) (factor : PyNum) : String :=
  "R" ++ toString (col + 1) ++ " = R" ++ toString (col + 1) ++ " * " ++ formatFactor factor

/-- The elimination operation text `R(r+1) = R(r+1) - factor * R(c+1)`
built at src/matrix.py:101 and 111. -/
def fgnElimOp (row col : Nat) (factor : PyNum) : String :=
  "R" ++ toString (row + 1) ++ " = R" ++ toString (row + 1) ++ " - " ++
    formatFactor factor ++ " * R" ++ toString (col + 1)

/-- Normalize the diagonal entry of `col` to 1 when it is neither 0 nor 1
(src/matrix.py:89-94). -/
def fgnScaleStep (w : Matrix) (ops : List String) (col : Nat) : Matrix × List String :=
  let diag := cleanNumber ((w.values.getD col []).getD col (.int 0))
  if ¬ diag.isZero ∧ ¬ diag.isOne then
    let factor := pyRound2 ((PyNum.int 1).div diag)
    let op := fgnScaleOp col factor
    ((w.update op).1, ops ++ [op])
  else (w, ops)

/-- Eliminate the entry at `(row, col)` when it is nonzero
(src/matrix.py:97-103 and 107-113). -/
def fgnElimStep (wops : Matrix × List String) (row col : Nat) : Matrix × List String :=
  let val := cleanNumber ((wops.1.values.getD row []).getD col (.int 0))
  if ¬ val.isZero then
    let factor := pyRound2 val
    let op := fgnElimOp row col factor
    (((wops.1).update op).1, wops.2 ++ [op])
  else wops

/-- One forward-phase column: normalize the diagonal, then eliminate below
it (src/matrix.py:87-103). -/
def fgnForwardCol (wops : Matrix × List String) (col : Nat) : Matrix × List String :=
  let scaled := fgnScaleStep wops.1 wops.2 col
  (List.range' (col + 1) (scaled.1.size - (col + 1))).foldl
    (fun acc row => fgnElimStep acc row col) scaled

/-- `find_gods_number` (src/matrix.py:64): greedy forward elimination
followed by back elimination on a working copy built from deep copies of
the caller's rows (src/matrix.py:83; the constructor length check passes
because the copied lists have the caller's lengths), returning the number
of recorded operations together with the operations themselves. -/
def find_gods_number (matrix : Matrix) : Nat × List String :=
  let work : Matrix := ⟨matrix.size, matrix.values, matrix.outputs, 0⟩
  let fwd := (List.range work.size).foldl fgnForwardCol (work, [])
  let bwd := ((List.range work.size).reverse).foldl
    (fun acc col => ((List.range col).reverse).foldl
      (fun acc2 row => fgnElimStep acc2 row col) acc) fwd
  (bwd.2.length, bwd.2)

/-! ### The generator `generate_matrix` (src/matrix.py:5)

The source draws from the process-global `random` module (Mersenne
Twister).  The embedding abstracts that hidden global state as an explicit
stream of naturals together with a cursor; each `randint(lo, hi)` consumes
one stream element and maps it into `lo..hi`, and each `random()`
comparison against `0.4` consumes one element reduced to thousandths.
`generate_matrix` has no seed parameter in the source; determinism
questions are therefore questions about this ambient state. -/

/-- The ambient RNG state: a stream and a cursor into it. -/
structure Rng where
  seq : Nat → Nat
  pos : Nat

/-- `random.randint(lo, hi)` (inclusive bounds): consumes one stream
element. -/
def randint (lo hi : Nat) (r : Rng) : Nat × Rng :=
  (lo + r.seq r.pos % (hi + 1 - lo), ⟨r.seq, r.pos + 1⟩)

/-- `random.random()` reduced to thousandths (used only for the
`random.random() < 0.4` test at src/matrix.py:46): consumes one stream
element; the draw is below 0.4 exactly when the result is below 400. -/
def randMilli (r : Rng) : Nat × Rng :=
  (r.seq r.pos % 1000, ⟨r.seq, r.pos + 1⟩)

/-- Dot product of integer rows (the `sum(values[i][j] * solution[j] ...)`
at src/matrix.py:58). -/
def dotI (row s : List Int) : Int := (List.zipWith (· * ·) row s).sum

/-- Three `randint` draws making one row (the row comprehensions at
src/matrix.py:43 and 50; `size` is fixed at 3, src/matrix.py:27). -/
def drawRow3 (lo hi : Nat) (r : Rng) : List Int × Rng :=
  let (a, r) := randint lo hi r
  let (b, r) := randint lo hi r
  let (c, r) := randint lo hi r
  ([(a : Int), (b : Int), (c : Int)], r)

/-- Nine `randint` draws making the full coefficient block, row by row. -/
def drawSquare (lo hi : Nat) (r : Rng) : List (List Int) × Rng :=
  let (r0, r) := drawRow3 lo hi r
  let (r1, r) := drawRow3 lo hi r
  let (r2, r) := drawRow3 lo hi r
  ([r0, r1, r2], r)

/-- One row of the strategic-zero pass (src/matrix.py:46-47): with
probability 0.4, one random entry of row `i` is forced to 0. -/
def strategicZeroStep (acc : List (List Int) × Rng) (i : Nat) : List (List Int) × Rng :=
  let (u, r1) := randMilli acc.2
  if u < 400 then
    let (j, r2) := randint 0 2 r1
    (acc.1.set i ((acc.1.getD i []).set j 0), r2)
  else (acc.1, r1)

/-- The strategic-zero pass of the moderate regime (src/matrix.py:45-47). -/
def strategicZeros (vals : List (List Int)) (r : Rng) : List (List Int) × Rng :=
  (List.range 3).foldl strategicZeroStep (vals, r)

/-- The random draws of `generate_matrix` (src/matrix.py:22-59): clamped
parameters, the three compressibility regimes for the coefficient block,
the hidden solution vector, and the derived augmented column. -/
def generateParts (difficulty compressibility : Int) (r : Rng) :
    (List (List Int) × List Int × List Int) × Rng :=
  let difficulty := max 0 (min 100 difficulty)
  let compressibility := max 0 (min 100 compressibility)
  let maxCoeff : Nat := (10 + difficulty).toNat
  let (values, r) :=
    if compressibility < 10 then
      let (v00, r) := randint 1 3 r
      let (v01, r) := randint 1 3 r
      let (v02, r) := randint 1 3 r
      let (v11, r) := randint 1 3 r
      let (v12, r) := randint 1 3 r
      let (v22, r) := randint 1 3 r
      ([[(v00 : Int), (v01 : Int), (v02 : Int)],
        [0, (v11 : Int), (v12 : Int)],
        [0, 0, (v22 : Int)]], r)
    else if compressibility < 50 then
      let (vals, r) := drawSquare 1 6 r
      strategicZeros vals r
    else
      drawSquare 1 maxCoeff r
  let (s0, r) := randint 1 maxCoeff r
  let (s1, r) := randint 1 maxCoeff r
  let (s2, r) := randint 1 maxCoeff r
  let sol : List Int := [(s0 : Int), (s1 : Int), (s2 : Int)]
  let outputs := values.map (fun row => dotI row sol)
  ((values, sol, outputs), r)

/-- `generate_matrix` (src/matrix.py:5): produce the Matrix (all cells are
Python ints) through the `Matrix` constructor. -/
def generate_matrix (difficulty compressibility : Int) (r : Rng) : InitResult × Rng :=
  let ((values, _sol, outputs), r1) := generateParts difficulty compressibility r
  (Matrix.init 3 (values.map (fun row => row.map PyNum.int)) (outputs.map PyNum.int), r1)

/-- The hidden solution vector drawn during a generation run
(src/matrix.py:53); it is local to `generate_matrix` and never stored on
the Matrix. -/
def genSolution (difficulty compressibility : Int) (r : Rng) : List Int :=
  (generateParts difficulty compressibility r).1.2.1

/-! ### A heap view of `find_gods_number` for the frame property

Python matrices are mutable objects; `Matrix.update` mutates the receiver
in place.  To state that `find_gods_number` never mutates the matrix it is
given, the object store is modeled as a list of matrices indexed by
position: `find_gods_number(matrix)` allocates one fresh object (the deep
copy at src/matrix.py:83) at the end of the store and every `update` call
of the run writes through that fresh reference only. -/

/-- Placeholder object for out-of-store reads. -/
def defaultMatrix : Matrix := ⟨0, [], [], 0⟩

/-- `find_gods_number` acting on an object store: the caller's matrix is at
index `i`; the working copy is allocated at the store's end and each
recorded operation is an `update` through that reference. -/
def find_gods_number_heap (h : List Matrix) (i : Nat) :
    List Matrix × (Nat × List String) :=
  let caller := h.getD i defaultMatrix
  let wIdx := h.length
  let res := find_gods_number caller
  let h1 := h ++ [⟨caller.size, caller.values, caller.outputs, 0⟩]
  let h2 := res.2.foldl
    (fun hh op => hh.set wIdx ((hh.getD wIdx defaultMatrix).update op).1) h1
  (h2, res)

/-! ### Predicates used by the theorems, and concrete instances -/

/-- Exact dot product of a row of Python numbers with an integer vector
(truncating at the shorter list, as `zip` does). -/
def dotQ (l : List PyNum) (s : List Int) : ℚ :=
  (List.zipWith (fun p k => p.toQ * (k : ℚ)) l s).sum

/-- All numeric literals of an expression are well-formed (the tokenizer
only produces literals with positive denominators). -/
def Expr.wfLits : Expr → Prop
  | .num p => p.wf
  | .name _ => True
  | .neg e => e.wfLits
  | .add e1 e2 => e1.wfLits ∧ e2.wfLits
  | .sub e1 e2 => e1.wfLits ∧ e2.wfLits
  | .mul e1 e2 => e1.wfLits ∧ e2.wfLits
  | .div e1 e2 => e1.wfLits ∧ e2.wfLits

/-- The documented representation invariant on row lengths (spec section 3,
`every row has size entries`); the constructor does not enforce it, but the
generator establishes it and `update` preserves it. -/
def Matrix.rowsWF (m : Matrix) : Prop :=
  ∀ i < m.size, (m.values.getD i []).length = m.size

/-- Every stored cell is canonical: `canonicalize(cell) == cell` for all
coefficient cells and augmented entries (spec sections 3 and 4.2). -/
def Matrix.Canonical (m : Matrix) : Prop :=
  (∀ row ∈ m.values, ∀ x ∈ row, cleanNumber x = x) ∧
    (∀ x ∈ m.outputs, cleanNumber x = x)

/-- Every stored cell is a well-formed number (positive `float`
denominators). -/
def Matrix.numsWF (m : Matrix) : Prop :=
  (∀ row ∈ m.values, ∀ x ∈ row, x.wf) ∧ (∀ x ∈ m.outputs, x.wf)

/-- The solvability invariant for a hidden solution vector `s`:
`coefficients · s == augmented`, under exact values (spec section 8). -/
def Matrix.SolInv (m : Matrix) (s : List Int) : Prop :=
  ∀ i < m.size, (m.outputs.getD i (.int 0)).toQ = dotQ (m.values.getD i []) s

/-- Two matrices with the same coefficient block (they may differ in the
augmented column and the move counter). -/
def SameVS (m1 m2 : Matrix) : Prop := m1.size = m2.size ∧ m1.values = m2.values

/-- The matrix of spec scenario 2, used as a concrete test vehicle. -/
def mScenario : Matrix :=
  ⟨3, [[.int 2, .int 0, .int 0], [.int 0, .int 3, .int 0], [.int 0, .int 0, .int 1]],
    [.int 4, .int 9, .int 5], 0⟩

/-- A ragged matrix accepted by the constructor (only outer lengths are
checked): its first coefficient row is empty. -/
def mRagged : Matrix := ⟨2, [[], [.int 5, .int 6]], [.int 3, .int 4], 0⟩

/-- The identity-plus-noise coefficient block of spec scenario 6 over an
arbitrary augmented column. -/
def mNoise (a b c : PyNum) : Matrix :=
  ⟨3, [[.int 2, .int 1, .int 0], [.int 0, .int 1, .int 0], [.int 0, .int 0, .int 1]],
    [a, b, c], 0⟩

/-- Two ambient RNG streams that differ, and a third one chosen to make the
generator emit the matrix used in the solvability counterexample. -/
def seqA : Nat → Nat := fun _ => 0

def seqB : Nat → Nat := fun _ => 1

def seqC : Nat → Nat := fun k => if k = 0 then 2 else if k = 10 then 1 else 0

/-- The matrix `generate_matrix 0 100` produces from stream `seqC`
(hidden solution vector `[1, 2, 1]`). -/
def mC4 : Matrix :=
  ⟨3, [[.int 3, .int 1, .int 1], [.int 1, .int 1, .int 1], [.int 1, .int 1, .int 1]],
    [.int 6, .int 4, .int 4], 0⟩

/-! ## Theorems -/

/-! ### Arithmetic of the numeric model -/

theorem PyNum.toQ_int (n : Int) : (PyNum.int n).toQ = (n : ℚ) := rfl

theorem PyNum.wf_toPair_pos {a : PyNum} (h : a.wf) : 0 < (a.toPair.2 : Int) := by
  cases a with
  | int n => simp [PyNum.toPair]
  | float n d => simpa [PyNum.toPair, PyNum.wf] using h

theorem PyNum.toQ_eq_pair (a : PyNum) : a.toQ = (a.toPair.1 : ℚ) / (a.toPair.2 : ℚ) := by
  cases a with
  | int n => simp [PyNum.toQ, PyNum.toPair]
  | float n d => rfl

theorem PyNum.add_toQ {a b : PyNum} (ha : a.wf) (hb : b.wf) :
    (a.add b).toQ = a.toQ + b.toQ ∧ (a.add b).wf := by
  cases a with
  | int x =>
    cases b with
    | int y => constructor
               · simp [PyNum.add, PyNum.toQ]
               · trivial
    | float m e =>
      have he : (0 : ℚ) < (e : ℚ) := by exact_mod_cast hb
      constructor
      · simp only [PyNum.add, PyNum.toQ, PyNum.toPair]
        push_cast
        field_simp
      · simpa [PyNum.add, PyNum.wf, PyNum.toPair] using hb
  | float n d =>
    have hd : (0 : ℚ) < (d : ℚ) := by exact_mod_cast ha
    cases b with
    | int y =>
      constructor
      · simp only [PyNum.add, PyNum.toQ, PyNum.toPair]
        push_cast
        field_simp
      · simpa [PyNum.add, PyNum.wf, PyNum.toPair] using ha
    | float m e =>
      have he : (0 : ℚ) < (e : ℚ) := by exact_mod_cast hb
      constructor
      · simp only [PyNum.add, PyNum.toQ, PyNum.toPair]
        push_cast
        field_simp
      · have : 0 < d * e := Nat.mul_pos ha hb
        simpa [PyNum.add, PyNum.wf, PyNum.toPair] using this

theorem PyNum.sub_toQ {a b : PyNum} (ha : a.wf) (hb : b.wf) :
    (a.sub b).toQ = a.toQ - b.toQ ∧ (a.sub b).wf := by
  cases a with
  | int x =>
    cases b with
    | int y => exact ⟨by simp [PyNum.sub, PyNum.toQ], trivial⟩
    | float m e =>
      have he : (0 : ℚ) < (e : ℚ) := by exact_mod_cast hb
      refine ⟨?_, by simpa [PyNum.sub, PyNum.wf, PyNum.toPair] using hb⟩
      simp only [PyNum.sub, PyNum.toQ, PyNum.toPair]
      push_cast
      field_simp
      try ring
  | float n d =>
    have hd : (0 : ℚ) < (d : ℚ) := by exact_mod_cast ha
    cases b with
    | int y =>
      refine ⟨?_, by simpa [PyNum.sub, PyNum.wf, PyNum.toPair] using ha⟩
      simp only [PyNum.sub, PyNum.toQ, PyNum.toPair]
      push_cast
      field_simp
      try ring
    | float m e =>
      have he : (0 : ℚ) < (e : ℚ) := by exact_mod_cast hb
      refine ⟨?_, by simpa [PyNum.sub, PyNum.wf, PyNum.toPair] using Nat.mul_pos ha hb⟩
      simp only [PyNum.sub, PyNum.toQ, PyNum.toPair]
      push_cast
      field_simp
      try ring

theorem PyNum.mul_toQ {a b : PyNum} (ha : a.wf) (hb : b.wf) :
    (a.mul b).toQ = a.toQ * b.toQ ∧ (a.mul b).wf := by
  cases a with
  | int x =>
    cases b with
    | int y => exact ⟨by simp [PyNum.mul, PyNum.toQ], trivial⟩
    | float m e =>
      have he : (0 : ℚ) < (e : ℚ) := by exact_mod_cast hb
      refine ⟨?_, by simpa [PyNum.mul, PyNum.wf, PyNum.toPair] using hb⟩
      simp only [PyNum.mul, PyNum.toQ, PyNum.toPair]
      push_cast
      field_simp
      try ring
  | float n d =>
    have hd : (0 : ℚ) < (d : ℚ) := by exact_mod_cast ha
    cases b with
    | int y =>
      refine ⟨?_, by simpa [PyNum.mul, PyNum.wf, PyNum.toPair] using ha⟩
      simp only [PyNum.mul, PyNum.toQ, PyNum.toPair]
      push_cast
      field_simp
      try ring
    | float m e =>
      have he : (0 : ℚ) < (e : ℚ) := by exact_mod_cast hb
      refine ⟨?_, by simpa [PyNum.mul, PyNum.wf, PyNum.toPair] using Nat.mul_pos ha hb⟩
      simp only [PyNum.mul, PyNum.toQ, PyNum.toPair]
      push_cast
      field_simp
      try ring

theorem PyNum.neg_toQ {a : PyNum} (ha : a.wf) :
    a.neg.toQ = -a.toQ ∧ a.neg.wf := by
  cases a with
  | int n => exact ⟨by simp [PyNum.neg, PyNum.toQ], trivial⟩
  | float n d =>
    refine ⟨?_, by simpa [PyNum.neg, PyNum.wf] using ha⟩
    simp [PyNum.neg, PyNum.toQ, neg_div]

theorem PyNum.isZero_iff {a : PyNum} (ha : a.wf) : a.isZero = true ↔ a.toQ = 0 := by
  have hd : (0 : ℚ) < (a.toPair.2 : ℚ) := by exact_mod_cast PyNum.wf_toPair_pos ha
  rw [PyNum.toQ_eq_pair, PyNum.isZero]
  rw [div_eq_zero_iff]
  simp only [beq_iff_eq]
  constructor
  · intro h
    exact Or.inl (by exact_mod_cast h)
  · intro h
    rcases h with h | h
    · exact_mod_cast h
    · exact absurd h (by positivity)

theorem PyNum.isOne_iff {a : PyNum} (ha : a.wf) : a.isOne = true ↔ a.toQ = 1 := by
  have hd : (0 : ℚ) < (a.toPair.2 : ℚ) := by exact_mod_cast PyNum.wf_toPair_pos ha
  rw [PyNum.toQ_eq_pair, PyNum.isOne]
  rw [div_eq_one_iff_eq (by positivity)]
  simp only [beq_iff_eq]
  constructor
  · intro h
    exact_mod_cast h
  · intro h
    exact_mod_cast h

theorem PyNum.div_core (n1 : Int) (d1 : Nat) (n2 : Int) (d2 : Nat)
    (hd1 : 0 < d1) (hd2 : 0 < d2) (hn2 : n2 ≠ 0) :
    ((if 0 ≤ n2 then PyNum.float (n1 * d2) (d1 * n2.toNat)
      else PyNum.float (-(n1 * d2)) (d1 * (-n2).toNat)).toQ
        = ((n1 : ℚ) / (d1 : ℚ)) / ((n2 : ℚ) / (d2 : ℚ))) ∧
    (if 0 ≤ n2 then PyNum.float (n1 * d2) (d1 * n2.toNat)
      else PyNum.float (-(n1 * d2)) (d1 * (-n2).toNat)).wf := by
  have q1 : ((d1 : ℚ)) ≠ 0 := by positivity
  have q2 : ((d2 : ℚ)) ≠ 0 := by positivity
  have qn2 : ((n2 : ℚ)) ≠ 0 := by exact_mod_cast hn2
  split_ifs with hsgn
  · have hcast : ((n2.toNat : ℚ)) = ((n2 : Int) : ℚ) := by
      exact_mod_cast Int.toNat_of_nonneg hsgn
    refine ⟨?_, Nat.mul_pos hd1 (by omega)⟩
    simp only [PyNum.toQ]
    push_cast [hcast]
    field_simp
    try ring
  · have hcast : (((-n2).toNat : ℚ)) = ((-n2 : Int) : ℚ) := by
      exact_mod_cast Int.toNat_of_nonneg (by omega)
    refine ⟨?_, Nat.mul_pos hd1 (by omega)⟩
    simp only [PyNum.toQ]
    push_cast [hcast]
    field_simp
    try ring

theorem PyNum.div_eq_core (a b : PyNum) :
    a.div b = (if 0 ≤ b.toPair.1 then
        PyNum.float (a.toPair.1 * b.toPair.2) (a.toPair.2 * (b.toPair.1).toNat)
      else
        PyNum.float (-(a.toPair.1 * b.toPair.2)) (a.toPair.2 * (-b.toPair.1).toNat)) := by
  cases a <;> cases b <;> rfl

theorem PyNum.toPair_one_ne {b : PyNum} (hz : b.toQ ≠ 0) : b.toPair.1 ≠ 0 := by
  intro h
  apply hz
  rw [PyNum.toQ_eq_pair, h]
  simp

theorem PyNum.div_toQ {a b : PyNum} (ha : a.wf) (hb : b.wf) (hz : b.toQ ≠ 0) :
    (a.div b).toQ = a.toQ / b.toQ ∧ (a.div b).wf := by
  have h1 : 0 < a.toPair.2 := by exact_mod_cast PyNum.wf_toPair_pos ha
  have h2 : 0 < b.toPair.2 := by exact_mod_cast PyNum.wf_toPair_pos hb
  have hn2 : b.toPair.1 ≠ 0 := PyNum.toPair_one_ne hz
  have core := PyNum.div_core a.toPair.1 a.toPair.2 b.toPair.1 b.toPair.2 h1 h2 hn2
  rw [PyNum.div_eq_core, PyNum.toQ_eq_pair a, PyNum.toQ_eq_pair b]
  exact core

/-! ### Canonicalization -/

theorem roundHalfEven_centi (k : Int) : roundHalfEven (k * 100) 100 = k := by
  have h : (k * 100).fdiv ((100 : Nat) : Int) = k := by
    rw [show (((100 : Nat) : Int)) = (100 : Int) from rfl]
    rw [Int.mul_fdiv_cancel _ (by norm_num)]
  simp only [roundHalfEven, h]
  norm_num

theorem cleanNumber_wf (x : PyNum) : (cleanNumber x).wf := by
  cases x with
  | int n => trivial
  | float n d =>
    simp only [cleanNumber]
    split_ifs with h
    · trivial
    · show (0 : Nat) < 100
      norm_num

theorem cleanNumber_idem (x : PyNum) :
    cleanNumber (cleanNumber x) = cleanNumber x := by
  cases x with
  | int n => rfl
  | float n d =>
    simp only [cleanNumber]
    split_ifs with h
    · rfl
    · simp only [cleanNumber, roundHalfEven_centi]
      rw [if_neg h]

/-- Claim C8: canonicalization is idempotent — for every number `x`,
`canonicalize(canonicalize(x)) == canonicalize(x)`. -/
theorem canonicalize_idempotent (x : PyNum) :
    cleanNumber (cleanNumber x) = cleanNumber x := cleanNumber_idem x

/-! ### The estimator reads only the coefficient block

`find_gods_number` decides every step by inspecting (cleaned) coefficient
cells, so matrices that agree on `size` and `values` produce the same
operation sequence; likewise `is_rref` only inspects the coefficient
block.  These congruences let the scenario-6 theorem quantify over an
arbitrary augmented column. -/

theorem update_sameVS {m1 m2 : Matrix} (h : SameVS m1 m2) (s : String) :
    SameVS (m1.update s).1 (m2.update s).1 := by
  obtain ⟨sz1, v1, o1, mc1⟩ := m1
  obtain ⟨sz2, v2, o2, mc2⟩ := m2
  obtain ⟨hs, hv⟩ := h
  dsimp only at hs hv
  subst hs
  subst hv
  rcases hph : parseHeader sz1 s with e | ⟨target, opStr⟩
  · refine ⟨?_, ?_⟩ <;> simp only [Matrix.update, hph]
  · rcases hpe : parseExprString opStr with e | ast
    · refine ⟨?_, ?_⟩ <;> simp only [Matrix.update, hph, hpe]
    · rcases her : evalRow v1 sz1 ast with e | v
      · refine ⟨?_, ?_⟩ <;> simp only [Matrix.update, hph, hpe, her]
      · rcases v with p | l
        · refine ⟨?_, ?_⟩ <;> simp only [Matrix.update, hph, hpe, her]
        · rcases hes1 : evalScalar o1 sz1 ast with e1 | p1 <;>
            rcases hes2 : evalScalar o2 sz1 ast with e2 | p2 <;>
              (refine ⟨?_, ?_⟩ <;> simp only [Matrix.update, hph, hpe, her, hes1, hes2])

theorem is_rref_congr {m1 m2 : Matrix} (h : SameVS m1 m2) :
    m1.is_rref = m2.is_rref := by
  obtain ⟨sz1, v1, o1, mc1⟩ := m1
  obtain ⟨sz2, v2, o2, mc2⟩ := m2
  obtain ⟨hs, hv⟩ := h
  dsimp only at hs hv
  subst hs
  subst hv
  rfl

theorem applyOps_sameVS {m1 m2 : Matrix} (h : SameVS m1 m2) (ops : List String) :
    SameVS (applyOps m1 ops) (applyOps m2 ops) := by
  induction ops generalizing m1 m2 with
  | nil => exact h
  | cons op rest ih => exact ih (update_sameVS h op)

theorem foldl_pres {α β : Type} (R : β → β → Prop) (f : β → α → β)
    (hf : ∀ p q a, R p q → R (f p a) (f q a)) :
    ∀ (l : List α) (p q : β), R p q → R (l.foldl f p) (l.foldl f q) := by
  intro l
  induction l with
  | nil => intro p q h; exact h
  | cons x xs ih => intro p q h; exact ih _ _ (hf _ _ _ h)

theorem fgnScaleStep_pres {w1 w2 : Matrix} {ops : List String} (h : SameVS w1 w2) (col : Nat) :
    SameVS (fgnScaleStep w1 ops col).1 (fgnScaleStep w2 ops col).1 ∧
      (fgnScaleStep w1 ops col).2 = (fgnScaleStep w2 ops col).2 := by
  have hs := h.1
  have hv := h.2
  simp only [fgnScaleStep, hv]
  split_ifs with hcond
  all_goals first
    | exact ⟨update_sameVS h _, rfl⟩
    | exact ⟨h, rfl⟩

theorem fgnElimStep_pres {p q : Matrix × List String}
    (h : SameVS p.1 q.1 ∧ p.2 = q.2) (row col : Nat) :
    SameVS (fgnElimStep p row col).1 (fgnElimStep q row col).1 ∧
      (fgnElimStep p row col).2 = (fgnElimStep q row col).2 := by
  obtain ⟨hvs, hops⟩ := h
  have hv := hvs.2
  simp only [fgnElimStep, hv, hops]
  split_ifs with hcond
  all_goals first
    | exact ⟨update_sameVS hvs _, rfl⟩
    | exact ⟨hvs, rfl⟩
    | exact ⟨hvs, hops⟩

theorem fgnForwardCol_pres {p q : Matrix × List String}
    (h : SameVS p.1 q.1 ∧ p.2 = q.2) (col : Nat) :
    SameVS (fgnForwardCol p col).1 (fgnForwardCol q col).1 ∧
      (fgnForwardCol p col).2 = (fgnForwardCol q col).2 := by
  obtain ⟨hvs, hops⟩ := h
  simp only [fgnForwardCol]
  have hscale : SameVS (fgnScaleStep p.1 p.2 col).1 (fgnScaleStep q.1 q.2 col).1 ∧
      (fgnScaleStep p.1 p.2 col).2 = (fgnScaleStep q.1 q.2 col).2 := by
    rw [hops]
    exact fgnScaleStep_pres hvs col
  have hsize : (fgnScaleStep p.1 p.2 col).1.size = (fgnScaleStep q.1 q.2 col).1.size :=
    hscale.1.1
  rw [hsize]
  exact foldl_pres (fun x y => SameVS x.1 y.1 ∧ x.2 = y.2)
    (fun acc row => fgnElimStep acc row col)
    (fun x y a hxy => fgnElimStep_pres hxy a col) _ _ _ hscale

theorem find_gods_number_congr {m1 m2 : Matrix} (h : SameVS m1 m2) :
    find_gods_number m1 = find_gods_number m2 := by
  have hs := h.1
  have hv := h.2
  simp only [find_gods_number]
  have hw : SameVS ⟨m1.size, m1.values, m1.outputs, 0⟩ ⟨m2.size, m2.values, m2.outputs, 0⟩ := by
    exact ⟨hs, hv⟩
  have hfwd := foldl_pres (fun x y => SameVS x.1 y.1 ∧ x.2 = y.2) fgnForwardCol
    (fun x y a hxy => fgnForwardCol_pres hxy a)
    (List.range (Matrix.mk m1.size m1.values m1.outputs 0).size)
    (⟨⟨m1.size, m1.values, m1.outputs, 0⟩, []⟩ : Matrix × List String)
    (⟨⟨m2.size, m2.values, m2.outputs, 0⟩, []⟩ : Matrix × List String)
    ⟨hw, rfl⟩
  have hsz : (Matrix.mk m1.size m1.values m1.outputs 0).size
      = (Matrix.mk m2.size m2.values m2.outputs 0).size := hs
  rw [hsz] at hfwd ⊢
  have hbwd := foldl_pres (fun x y => SameVS x.1 y.1 ∧ x.2 = y.2)
    (fun acc col => ((List.range col).reverse).foldl
      (fun acc2 row => fgnElimStep acc2 row col) acc)
    (fun x y a hxy => foldl_pres (fun u w => SameVS u.1 w.1 ∧ u.2 = w.2)
      (fun acc2 row => fgnElimStep acc2 row a)
      (fun u w r huw => fgnElimStep_pres huw r a) _ x y hxy)
    ((List.range (Matrix.mk m2.size m2.values m2.outputs 0).size).reverse) _ _ hfwd
  rw [hbwd.2]

/-- Claim C6: on the Matrix with coefficients `[[2,1,0],[0,1,0],[0,0,1]]`
and any augmented column `[a,b,c]`, the estimator terminates (it is a total
function of this development) and returns a finite move count that is
nonnegative and equals the length of the returned operation sequence, and
applying that exact sequence in order to a fresh copy of the same Matrix
yields a Matrix whose `is_rref` holds. -/
theorem find_gods_number_count (m : Matrix) :
    (find_gods_number m).1 = (find_gods_number m).2.length := by
  simp only [find_gods_number]

theorem estimate_identity_plus_noise (a b c : PyNum) :
    0 ≤ (find_gods_number (mNoise a b c)).1 ∧
    (find_gods_number (mNoise a b c)).1 = (find_gods_number (mNoise a b c)).2.length ∧
    (applyOps (mNoise a b c) (find_gods_number (mNoise a b c)).2).is_rref = true := by
  have hrel : SameVS (mNoise a b c) (mNoise (.int 0) (.int 0) (.int 0)) := ⟨rfl, rfl⟩
  refine ⟨Nat.zero_le _, find_gods_number_count _, ?_⟩
  rw [find_gods_number_congr hrel, is_rref_congr (applyOps_sameVS hrel _)]
  decide

/-! ### Frame properties -/

/-- Claim C10: a successfully committed transformation targeting row `t`
changes only `coefficients[t]`, `augmented[t]` and `moveCount`: the size is
unchanged, `moveCount` rises by exactly one, and every other coefficient
row and augmented entry is identical to its pre-transformation value. -/
theorem update_success_frame (m : Matrix) (s : String) (m' : Matrix) (t : Nat)
    (rhs : List Char)
    (hHead : parseHeader m.size s = .ok (t, rhs))
    (h : m.update s = (m', none)) :
    m'.size = m.size ∧ m'.moves_count = m.moves_count + 1 ∧
      ∀ i, i ≠ t →
        m'.values.getD i [] = m.values.getD i [] ∧
          m'.outputs.getD i (.int 0) = m.outputs.getD i (.int 0) := by
  rcases hpe : parseExprString rhs with e | ast
  · simp only [Matrix.update, hHead, hpe, Prod.mk.injEq] at h
    exact absurd h.2 (by simp)
  · rcases her : evalRow m.values m.size ast with e | v
    · simp only [Matrix.update, hHead, hpe, her, Prod.mk.injEq] at h
      exact absurd h.2 (by simp)
    · rcases v with p | l
      · simp only [Matrix.update, hHead, hpe, her, Prod.mk.injEq] at h
        exact absurd h.2 (by simp)
      · rcases hes : evalScalar m.outputs m.size ast with e | p
        · simp only [Matrix.update, hHead, hpe, her, hes, Prod.mk.injEq] at h
          exact absurd h.2 (by simp)
        · simp only [Matrix.update, hHead, hpe, her, hes, Prod.mk.injEq] at h
          obtain ⟨hm, -⟩ := h
          subst hm
          refine ⟨rfl, rfl, ?_⟩
          intro i hi
          constructor
          · simp [List.getD, List.getElem?_set_ne (Ne.symm hi)]
          · simp [List.getD, List.getElem?_set_ne (Ne.symm hi)]

/-- Witness for C10: scenario 2's first transformation succeeds, targets
row 0, and leaves row 1 untouched. -/
theorem update_success_frame_witness :
    ((mScenario.update "R1 = R1 * 0.5").1.values.getD 1 [] = mScenario.values.getD 1 []) ∧
      ((mScenario.update "R1 = R1 * 0.5").1.moves_count = mScenario.moves_count + 1) :=
  ⟨((update_success_frame mScenario "R1 = R1 * 0.5" (mScenario.update "R1 = R1 * 0.5").1 0
      (String.data "R1 * 0.5") rfl rfl).2.2 1 (by decide)).1,
    (update_success_frame mScenario "R1 = R1 * 0.5" (mScenario.update "R1 = R1 * 0.5").1 0
      (String.data "R1 * 0.5") rfl rfl).2.1⟩

theorem foldl_set_getD {β : Type} (w : Nat) (g : List Matrix → β → Matrix) :
    ∀ (l : List β) (hh : List Matrix) (i : Nat), i ≠ w →
      (l.foldl (fun acc b => acc.set w (g acc b)) hh).getD i defaultMatrix
        = hh.getD i defaultMatrix := by
  intro l
  induction l with
  | nil => intro hh i hi; rfl
  | cons x xs ih =>
    intro hh i hi
    rw [List.foldl_cons, ih _ _ hi]
    simp [List.getD, List.getElem?_set_ne (Ne.symm hi)]

/-- Claim C9: `find_gods_number` operates only on a private deep copy and
never mutates the caller's Matrix: in the object-store model, after the
call the object at the caller's index — its size, coefficients, augmented
column and move counter — is identical to its value before the call. -/
theorem estimate_no_mutation (h : List Matrix) (i : Nat) (hi : i < h.length) :
    (find_gods_number_heap h i).1.getD i defaultMatrix = h.getD i defaultMatrix := by
  simp only [find_gods_number_heap]
  rw [foldl_set_getD (h.length)
    (fun hh op => ((hh.getD h.length defaultMatrix).update op).1) _ _ i (Nat.ne_of_lt hi)]
  simp [List.getD, List.getElem?_append, hi]

/-- Witness for C9: a one-object store holding scenario 2's matrix. -/
theorem estimate_no_mutation_witness :
    (0 < [mScenario].length) ∧
      (find_gods_number_heap [mScenario] 0).1.getD 0 defaultMatrix
        = [mScenario].getD 0 defaultMatrix :=
  ⟨by decide, estimate_no_mutation [mScenario] 0 (by decide)⟩

/-! ### Canonical cells (claim C7) -/

theorem cleanRow_canonical {l : List PyNum} {x : PyNum} (hx : x ∈ cleanRow l) :
    cleanNumber x = x := by
  obtain ⟨y, -, rfl⟩ := List.mem_map.mp hx
  exact cleanNumber_idem y

/-- Claim C7: every cell stored in `coefficients` or `augmented` is
canonical — for every Matrix created by the generator, and after every
`update` call (in particular after every successfully applied
transformation), `canonicalize(cell) == cell` holds for every coefficient
cell and every augmented entry. -/
theorem stored_cells_canonical :
    (∀ (d c : Int) (r : Rng) (m : Matrix),
      (generate_matrix d c r).1 = .ok m → m.Canonical) ∧
    (∀ (m : Matrix) (s : String), m.Canonical → ((m.update s).1).Canonical) := by
  constructor
  · intro d c r m hgen
    rcases hp : generateParts d c r with ⟨⟨values, sol⟩, r1⟩
    obtain ⟨sol, outputs⟩ := sol
    simp only [generate_matrix, hp] at hgen
    simp only [Matrix.init] at hgen
    split at hgen
    · obtain rfl : _ = m := by injection hgen
      constructor
      · intro row hrow x hx
        obtain ⟨r', -, rfl⟩ := List.mem_map.mp hrow
        obtain ⟨n, -, rfl⟩ := List.mem_map.mp hx
        rfl
      · intro x hx
        obtain ⟨n, -, rfl⟩ := List.mem_map.mp hx
        rfl
    · exact absurd hgen (by simp)
  · intro m s hm
    rcases hph : parseHeader m.size s with e | ⟨target, rhs⟩
    · simpa only [Matrix.update, hph] using hm
    · rcases hpe : parseExprString rhs with e | ast
      · simpa only [Matrix.update, hph, hpe] using hm
      · rcases her : evalRow m.values m.size ast with e | v
        · simpa only [Matrix.update, hph, hpe, her] using hm
        · rcases v with p | l
          · simpa only [Matrix.update, hph, hpe, her] using hm
          · rcases hes : evalScalar m.outputs m.size ast with e | p
            · simp only [Matrix.update, hph, hpe, her, hes]
              refine ⟨?_, hm.2⟩
              intro row hrow x hx
              rcases List.mem_or_eq_of_mem_set hrow with hrow | rfl
              · exact hm.1 row hrow x hx
              · exact cleanRow_canonical hx
            · simp only [Matrix.update, hph, hpe, her, hes]
              constructor
              · intro row hrow x hx
                rcases List.mem_or_eq_of_mem_set hrow with hrow | rfl
                · exact hm.1 row hrow x hx
                · exact cleanRow_canonical hx
              · intro x hx
                rcases List.mem_or_eq_of_mem_set hx with hx | rfl
                · exact hm.2 x hx
                · exact cleanNumber_idem p

/-- Witness for C7: the generator run on stream `seqC` yields `mC4`, whose
cells are all canonical, and scenario 2's first transformation preserves
canonicality of `mScenario`. -/
theorem stored_cells_canonical_witness :
    ((generate_matrix 0 100 ⟨seqC, 0⟩).1 = .ok mC4) ∧
      mC4.Canonical ∧ ((mScenario.update "R1 = R1 * 0.5").1).Canonical := by
  refine ⟨rfl, stored_cells_canonical.1 0 100 ⟨seqC, 0⟩ mC4 rfl,
    stored_cells_canonical.2 mScenario "R1 = R1 * 0.5" ?_⟩
  constructor <;> decide

/-! ### The constructor and the generator seen from the outside -/

/-- Claim C2 (code behavior at the failing input): the constructor, given
one row where three are promised, does not return an error value to the
caller — it prints `matrix not correctly sized` and calls `exit()`,
terminating the hosting process. -/
theorem init_mismatched_exits :
    Matrix.init 3 [[.int 1, .int 2, .int 3]] [.int 1, .int 2, .int 3]
      = .processExit "matrix not correctly sized" := by decide

/-- Claim C3 (code behavior): `generate_matrix` has no seed parameter; its
randomness comes from the ambient RNG state, and two calls with identical
`(difficulty, compressibility)` arguments but different ambient states
return different matrices. -/
theorem generate_depends_on_ambient_state :
    (generate_matrix 0 100 ⟨seqA, 0⟩).1 ≠ (generate_matrix 0 100 ⟨seqB, 0⟩).1 := by
  decide

/-- Claim C5 (code behavior): each documented class of invalid
transformation input is detected synchronously, the Matrix value is left
unchanged and no exception escapes; the diagnostic is the printed text of
the source (`update` itself returns `None`), not a structured error-kind
value handed to the caller. -/
theorem update_detects_and_prints :
    ((mScenario.update "R1 = R1 * ABC").2 = some (.evalErr (.nameErr "ABC")) ∧
      (mScenario.update "R1 = R1 * ABC").1 = mScenario) ∧
    ((mScenario.update "R9 = R1 * 2").2 = some .outOfBounds ∧
      (mScenario.update "R9 = R1 * 2").1 = mScenario) ∧
    ((mScenario.update "R1 = R1 / 0").2 = some (.evalErr .zeroDivision) ∧
      (mScenario.update "R1 = R1 / 0").1 = mScenario) ∧
    ((mScenario.update "R1 = 2").2 = some .notARow ∧
      (mScenario.update "R1 = 2").1 = mScenario) ∧
    ((mScenario.update "R1 = R1 * R2").2
        = some (.evalErr (.typeErr "Row can only be multiplied by a scalar")) ∧
      (mScenario.update "R1 = R1 * R2").1 = mScenario) := by
  decide

/-! ### Row-domain success forces scalar-domain success

The two `eval` calls of `Matrix.update` run the same tree over two
namespaces.  On a matrix whose rows all have `size` entries, whenever the
row-domain evaluation succeeds the scalar-domain evaluation succeeds too:
every divisor subterm is row-free (a successful row-domain subterm that is
a plain number contains no usable row reference), hence evaluates to the
same number in both domains, and the `ZeroDivisionError` checks coincide.
This is the load-bearing fact behind the atomicity contract: the source
writes the coefficient row before running the scalar evaluation, so a
scalar-side failure after a row-side success would leave a half-updated
matrix. -/

theorem lookupRef_lt {size : Nat} {nm : String} {i : Nat}
    (h : lookupRef size nm = some i) : i < size := by
  have hmem := List.mem_of_find?_eq_some h
  exact List.mem_range.mp hmem

theorem eval_success (vals : List (List PyNum)) (outs : List PyNum) (size : Nat)
    (hrows : ∀ i < size, (vals.getD i []).length = size) :
    ∀ e : Expr,
      (∀ p, evalRow vals size e = .ok (.num p) → evalScalar outs size e = .ok p) ∧
      (∀ l, evalRow vals size e = .ok (.row l) →
        0 < size ∧ l.length = size ∧ ∃ p, evalScalar outs size e = .ok p) := by
  intro e
  induction e with
  | num q =>
    refine ⟨?_, ?_⟩
    · intro p hp
      obtain rfl : q = p := by simpa [evalRow] using hp
      rfl
    · intro l hl
      simp [evalRow] at hl
  | name nm =>
    refine ⟨?_, ?_⟩
    · intro p hp
      rcases hlk : lookupRef size nm with _ | i <;> simp [evalRow, hlk] at hp
    · intro l hl
      rcases hlk : lookupRef size nm with _ | i
      · simp [evalRow, hlk] at hl
      · simp only [evalRow, hlk] at hl
        have hi : i < size := lookupRef_lt hlk
        obtain rfl : vals.getD i [] = l := by simpa using hl
        exact ⟨Nat.lt_of_le_of_lt (Nat.zero_le i) hi, hrows i hi,
          ⟨outs.getD i (.int 0), by simp [evalScalar, hlk]⟩⟩
  | neg e ih =>
    refine ⟨?_, ?_⟩
    · intro p hp
      rcases h1 : evalRow vals size e with er | v
      · simp [evalRow, h1, Bind.bind, Except.bind] at hp
      · rcases v with q | l0
        · simp only [evalRow, h1, Bind.bind, Except.bind] at hp
          obtain rfl : q.neg = p := by simpa using hp
          have s1 := ih.1 q h1
          simp [evalScalar, s1, Bind.bind, Except.bind]
        · simp [evalRow, h1, Bind.bind, Except.bind] at hp
    · intro l hl
      rcases h1 : evalRow vals size e with er | v
      · simp [evalRow, h1, Bind.bind, Except.bind] at hl
      · rcases v with q | l0 <;> simp [evalRow, h1, Bind.bind, Except.bind] at hl
  | add e1 e2 ih1 ih2 =>
    refine ⟨?_, ?_⟩
    · intro p hp
      rcases h1 : evalRow vals size e1 with er | v1
      · simp [evalRow, h1, Bind.bind, Except.bind] at hp
      · rcases h2 : evalRow vals size e2 with er | v2
        · cases v1 <;> simp [evalRow, h1, h2, Bind.bind, Except.bind] at hp
        · cases v1 with
          | num a =>
            cases v2 with
            | num b =>
              simp only [evalRow, h1, h2, Bind.bind, Except.bind] at hp
              obtain rfl : a.add b = p := by simpa using hp
              simp [evalScalar, ih1.1 a h1, ih2.1 b h2, Bind.bind, Except.bind]
            | row l2 => simp [evalRow, h1, h2, Bind.bind, Except.bind] at hp
          | row l1 =>
            cases v2 <;> simp [evalRow, h1, h2, Bind.bind, Except.bind] at hp
    · intro l hl
      rcases h1 : evalRow vals size e1 with er | v1
      · simp [evalRow, h1, Bind.bind, Except.bind] at hl
      · rcases h2 : evalRow vals size e2 with er | v2
        · cases v1 <;> simp [evalRow, h1, h2, Bind.bind, Except.bind] at hl
        · cases v1 with
          | num a =>
            cases v2 <;> simp [evalRow, h1, h2, Bind.bind, Except.bind] at hl
          | row l1 =>
            cases v2 with
            | num b => simp [evalRow, h1, h2, Bind.bind, Except.bind] at hl
            | row l2 =>
              simp only [evalRow, h1, h2, Bind.bind, Except.bind] at hl
              obtain rfl : List.zipWith PyNum.add l1 l2 = l := by simpa using hl
              obtain ⟨hpos, hlen1, p1, hs1⟩ := ih1.2 l1 h1
              obtain ⟨-, hlen2, p2, hs2⟩ := ih2.2 l2 h2
              refine ⟨hpos, ?_, ⟨p1.add p2, ?_⟩⟩
              · rw [List.length_zipWith, hlen1, hlen2, Nat.min_self]
              · simp [evalScalar, hs1, hs2, Bind.bind, Except.bind]
  | sub e1 e2 ih1 ih2 =>
    refine ⟨?_, ?_⟩
    · intro p hp
      rcases h1 : evalRow vals size e1 with er | v1
      · simp [evalRow, h1, Bind.bind, Except.bind] at hp
      · rcases h2 : evalRow vals size e2 with er | v2
        · cases v1 <;> simp [evalRow, h1, h2, Bind.bind, Except.bind] at hp
        · cases v1 with
          | num a =>
            cases v2 with
            | num b =>
              simp only [evalRow, h1, h2, Bind.bind, Except.bind] at hp
              obtain rfl : a.sub b = p := by simpa using hp
              simp [evalScalar, ih1.1 a h1, ih2.1 b h2, Bind.bind, Except.bind]
            | row l2 => simp [evalRow, h1, h2, Bind.bind, Except.bind] at hp
          | row l1 =>
            cases v2 <;> simp [evalRow, h1, h2, Bind.bind, Except.bind] at hp
    · intro l hl
      rcases h1 : evalRow vals size e1 with er | v1
      · simp [evalRow, h1, Bind.bind, Except.bind] at hl
      · rcases h2 : evalRow vals size e2 with er | v2
        · cases v1 <;> simp [evalRow, h1, h2, Bind.bind, Except.bind] at hl
        · cases v1 with
          | num a =>
            cases v2 <;> simp [evalRow, h1, h2, Bind.bind, Except.bind] at hl
          | row l1 =>
            cases v2 with
            | num b => simp [evalRow, h1, h2, Bind.bind, Except.bind] at hl
            | row l2 =>
              simp only [evalRow, h1, h2, Bind.bind, Except.bind] at hl
              obtain rfl : List.zipWith PyNum.sub l1 l2 = l := by simpa using hl
              obtain ⟨hpos, hlen1, p1, hs1⟩ := ih1.2 l1 h1
              obtain ⟨-, hlen2, p2, hs2⟩ := ih2.2 l2 h2
              refine ⟨hpos, ?_, ⟨p1.sub p2, ?_⟩⟩
              · rw [List.length_zipWith, hlen1, hlen2, Nat.min_self]
              · simp [evalScalar, hs1, hs2, Bind.bind, Except.bind]
  | mul e1 e2 ih1 ih2 =>
    refine ⟨?_, ?_⟩
    · intro p hp
      rcases h1 : evalRow vals size e1 with er | v1
      · simp [evalRow, h1, Bind.bind, Except.bind] at hp
      · rcases h2 : evalRow vals size e2 with er | v2
        · cases v1 <;> simp [evalRow, h1, h2, Bind.bind, Except.bind] at hp
        · cases v1 with
          | num a =>
            cases v2 with
            | num b =>
              simp only [evalRow, h1, h2, Bind.bind, Except.bind] at hp
              obtain rfl : a.mul b = p := by simpa using hp
              simp [evalScalar, ih1.1 a h1, ih2.1 b h2, Bind.bind, Except.bind]
            | row l2 => simp [evalRow, h1, h2, Bind.bind, Except.bind] at hp
          | row l1 =>
            cases v2 <;> simp [evalRow, h1, h2, Bind.bind, Except.bind] at hp
    · intro l hl
      rcases h1 : evalRow vals size e1 with er | v1
      · simp [evalRow, h1, Bind.bind, Except.bind] at hl
      · rcases h2 : evalRow vals size e2 with er | v2
        · cases v1 <;> simp [evalRow, h1, h2, Bind.bind, Except.bind] at hl
        · cases v1 with
          | num a =>
            cases v2 with
            | num b => simp [evalRow, h1, h2, Bind.bind, Except.bind] at hl
            | row l2 =>
              simp only [evalRow, h1, h2, Bind.bind, Except.bind] at hl
              obtain rfl : l2.map (fun x => x.mul a) = l := by simpa using hl
              obtain ⟨hpos, hlen2, p2, hs2⟩ := ih2.2 l2 h2
              refine ⟨hpos, by simpa using hlen2, ⟨a.mul p2, ?_⟩⟩
              simp [evalScalar, ih1.1 a h1, hs2, Bind.bind, Except.bind]
          | row l1 =>
            cases v2 with
            | num b =>
              simp only [evalRow, h1, h2, Bind.bind, Except.bind] at hl
              obtain rfl : l1.map (fun x => x.mul b) = l := by simpa using hl
              obtain ⟨hpos, hlen1, p1, hs1⟩ := ih1.2 l1 h1
              refine ⟨hpos, by simpa using hlen1, ⟨p1.mul b, ?_⟩⟩
              simp [evalScalar, hs1, ih2.1 b h2, Bind.bind, Except.bind]
            | row l2 => simp [evalRow, h1, h2, Bind.bind, Except.bind] at hl
  | div e1 e2 ih1 ih2 =>
    refine ⟨?_, ?_⟩
    · intro p hp
      rcases h1 : evalRow vals size e1 with er | v1
      · simp [evalRow, h1, Bind.bind, Except.bind] at hp
      · rcases h2 : evalRow vals size e2 with er | v2
        · cases v1 <;> simp [evalRow, h1, h2, Bind.bind, Except.bind] at hp
        · cases v1 with
          | num a =>
            cases v2 with
            | num b =>
              rcases hz : b.isZero with _ | _
              · simp only [evalRow, h1, h2, hz, Bind.bind, Except.bind] at hp
                obtain rfl : a.div b = p := by simpa using hp
                simp [evalScalar, ih1.1 a h1, ih2.1 b h2, hz, Bind.bind, Except.bind]
              · simp [evalRow, h1, h2, hz, Bind.bind, Except.bind] at hp
            | row l2 => simp [evalRow, h1, h2, Bind.bind, Except.bind] at hp
          | row l1 =>
            cases v2 with
            | num b =>
              cases l1 with
              | nil => simp [evalRow, h1, h2, Bind.bind, Except.bind] at hp
              | cons x xs =>
                rcases hz : b.isZero with _ | _
                · simp [evalRow, h1, h2, hz, Bind.bind, Except.bind] at hp
                · simp [evalRow, h1, h2, hz, Bind.bind, Except.bind] at hp
            | row l2 => simp [evalRow, h1, h2, Bind.bind, Except.bind] at hp
    · intro l hl
      rcases h1 : evalRow vals size e1 with er | v1
      · simp [evalRow, h1, Bind.bind, Except.bind] at hl
      · rcases h2 : evalRow vals size e2 with er | v2
        · cases v1 <;> simp [evalRow, h1, h2, Bind.bind, Except.bind] at hl
        · cases v1 with
          | num a =>
            cases v2 with
            | num b =>
              rcases hz : b.isZero with _ | _ <;>
                simp [evalRow, h1, h2, hz, Bind.bind, Except.bind] at hl
            | row l2 => simp [evalRow, h1, h2, Bind.bind, Except.bind] at hl
          | row l1 =>
            cases v2 with
            | num b =>
              cases l1 with
              | nil =>
                obtain ⟨hpos, hlen1, -⟩ := ih1.2 [] h1
                simp at hlen1
                omega
              | cons x xs =>
                rcases hz : b.isZero with _ | _
                · simp only [evalRow, h1, h2, hz, Bind.bind, Except.bind] at hl
                  obtain rfl : (x :: xs).map (fun y => y.div b) = l := by simpa using hl
                  obtain ⟨hpos, hlen1, p1, hs1⟩ := ih1.2 (x :: xs) h1
                  refine ⟨hpos, by simpa using hlen1, ⟨p1.div b, ?_⟩⟩
                  simp [evalScalar, hs1, ih2.1 b h2, hz, Bind.bind, Except.bind]
                · simp [evalRow, h1, h2, hz, Bind.bind, Except.bind] at hl
            | row l2 => simp [evalRow, h1, h2, Bind.bind, Except.bind] at hl

/-- Claim C1, amended with the documented row-length invariant and scoped
to the documented transformation grammar: for every Matrix whose
coefficient rows each have exactly `size` entries, and every
transformation text whose header parses as `Rk = rhs` and whose
right-hand side parses under the spec-section-4.3 grammar — the texts on
which this embedding is operator-for-operator exact with the source's
`eval` — if the attempt fails anywhere past parsing (the row-domain
evaluation, the result-shape check, or the scalar-domain evaluation),
then the `update` call leaves the Matrix (coefficients, augmented column
and `moveCount`) bit-for-bit unchanged.  Without the row-length
hypothesis this is false: see `update_failure_mutates_ragged`.  The
grammar hypotheses bound the verified scope: the source's raw `eval`
(src/matrix.py:256) also accepts expression forms outside the grammar
that survive `upper()` and the `=` split, e.g. a dict display with
subscription, and on such a text the row-domain eval can succeed and
commit the row write at line 258 before the scalar-domain eval fails —
so atomicity does not extend to arbitrary texts even under the
row-length invariant. -/
theorem update_failure_unchanged (m : Matrix) (s : String) (err : UpdateErr)
    (t : Nat) (rhs : List Char) (ast : Expr)
    (hrows : ∀ i < m.size, (m.values.getD i []).length = m.size)
    (hph : parseHeader m.size s = .ok (t, rhs))
    (hpe : parseExprString rhs = .ok ast)
    (h : (m.update s).2 = some err) : (m.update s).1 = m := by
  rcases her : evalRow m.values m.size ast with e | v
  · simp only [Matrix.update, hph, hpe, her]
  · rcases v with p | l
    · simp only [Matrix.update, hph, hpe, her]
    · rcases hes : evalScalar m.outputs m.size ast with e | p
      · obtain ⟨-, -, p, hp⟩ :=
          (eval_success m.values m.outputs m.size hrows ast).2 l her
        rw [hp] at hes
        cases hes
      · simp only [Matrix.update, hph, hpe, her, hes] at h
        exact absurd h (by simp)

/-- Counterexample to C1 as frozen: the constructor accepts the ragged
matrix `mRagged` (an empty first row), and on it the transformation
`R2 = R1 / 0` succeeds in the row domain (dividing an empty row by zero
raises nothing), overwrites coefficient row 1, and only then fails the
scalar evaluation with a `ZeroDivisionError` — the update call returns
with the coefficients mutated. -/
theorem update_failure_mutates_ragged :
    Matrix.init 2 [[], [.int 5, .int 6]] [.int 3, .int 4] = .ok mRagged ∧
    (mRagged.update "R2 = R1 / 0").2 = some (.evalErrOutputs .zeroDivision) ∧
    (mRagged.update "R2 = R1 / 0").1.values ≠ mRagged.values := by
  refine ⟨by decide, by decide, by decide⟩

/-- Witness for C1: scenario 2's matrix satisfies the row-length
invariant, the text `R1 = R1 / 0` parses under the documented grammar
(header target row 0, right-hand side `R1 / 0`), the attempt fails with a
`ZeroDivisionError`, and the matrix is left unchanged. -/
theorem update_failure_unchanged_witness :
    (∀ i < mScenario.size, (mScenario.values.getD i []).length = mScenario.size) ∧
    parseHeader mScenario.size "R1 = R1 / 0" = .ok (0, "R1 / 0".data) ∧
    parseExprString "R1 / 0".data = .ok (.div (.name "R1") (.num (.int 0))) ∧
    ((mScenario.update "R1 = R1 / 0").2 = some (.evalErr .zeroDivision)) ∧
    (mScenario.update "R1 = R1 / 0").1 = mScenario :=
  ⟨by decide, by rfl, by rfl, by decide,
    update_failure_unchanged mScenario "R1 = R1 / 0" (.evalErr .zeroDivision)
      0 ("R1 / 0".data) (.div (.name "R1") (.num (.int 0)))
      (by decide) (by rfl) (by rfl) (by decide)⟩

/-! ### Parsed expressions carry well-formed literals -/

theorem tokenizeF_wf : ∀ (fuel : Nat) (s : List Char) (ts : List Tok),
    tokenizeF fuel s = .ok ts → ∀ p, Tok.num p ∈ ts → p.wf := by
  intro fuel
  induction fuel with
  | zero =>
    intro s ts h
    rw [tokenizeF] at h
    exact Except.noConfusion h
  | succ fuel ih =>
    intro s ts h p hp
    cases s with
    | nil =>
      rw [tokenizeF] at h
      obtain rfl : [] = ts := by simpa using h
      simp at hp
    | cons c cs =>
      rw [tokenizeF] at h
      by_cases h1 : isPySpace c = true
      · rw [if_pos h1] at h
        exact ih cs ts h p hp
      rw [if_neg h1] at h
      by_cases h2 : c = '+'
      · rw [if_pos h2] at h
        rcases hrec : tokenizeF fuel cs with e | rest
        · simp only [hrec, Bind.bind, Except.bind] at h
          exact Except.noConfusion h
        · simp only [hrec, Bind.bind, Except.bind, pure, Except.pure] at h
          cases h
          rcases List.mem_cons.mp hp with heq | hmem
          · cases heq
          · exact ih cs rest hrec p hmem
      rw [if_neg h2] at h
      by_cases h3 : c = '-'
      · rw [if_pos h3] at h
        rcases hrec : tokenizeF fuel cs with e | rest
        · simp only [hrec, Bind.bind, Except.bind] at h
          exact Except.noConfusion h
        · simp only [hrec, Bind.bind, Except.bind, pure, Except.pure] at h
          cases h
          rcases List.mem_cons.mp hp with heq | hmem
          · cases heq
          · exact ih cs rest hrec p hmem
      rw [if_neg h3] at h
      by_cases h4 : c = '*'
      · rw [if_pos h4] at h
        rcases hrec : tokenizeF fuel cs with e | rest
        · simp only [hrec, Bind.bind, Except.bind] at h
          exact Except.noConfusion h
        · simp only [hrec, Bind.bind, Except.bind, pure, Except.pure] at h
          cases h
          rcases List.mem_cons.mp hp with heq | hmem
          · cases heq
          · exact ih cs rest hrec p hmem
      rw [if_neg h4] at h
      by_cases h5 : c = '/'
      · rw [if_pos h5] at h
        rcases hrec : tokenizeF fuel cs with e | rest
        · simp only [hrec, Bind.bind, Except.bind] at h
          exact Except.noConfusion h
        · simp only [hrec, Bind.bind, Except.bind, pure, Except.pure] at h
          cases h
          rcases List.mem_cons.mp hp with heq | hmem
          · cases heq
          · exact ih cs rest hrec p hmem
      rw [if_neg h5] at h
      by_cases h6 : c = '('
      · rw [if_pos h6] at h
        rcases hrec : tokenizeF fuel cs with e | rest
        · simp only [hrec, Bind.bind, Except.bind] at h
          exact Except.noConfusion h
        · simp only [hrec, Bind.bind, Except.bind, pure, Except.pure] at h
          cases h
          rcases List.mem_cons.mp hp with heq | hmem
          · cases heq
          · exact ih cs rest hrec p hmem
      rw [if_neg h6] at h
      by_cases h7 : c = ')'
      · rw [if_pos h7] at h
        rcases hrec : tokenizeF fuel cs with e | rest
        · simp only [hrec, Bind.bind, Except.bind] at h
          exact Except.noConfusion h
        · simp only [hrec, Bind.bind, Except.bind, pure, Except.pure] at h
          cases h
          rcases List.mem_cons.mp hp with heq | hmem
          · cases heq
          · exact ih cs rest hrec p hmem
      rw [if_neg h7] at h
      by_cases h8 : c.isDigit = true
      · rw [if_pos h8] at h
        rcases hsp : List.span Char.isDigit (c :: cs) with ⟨ds, rest⟩
        rw [hsp] at h
        dsimp only at h
        by_cases hdot : rest.head? = some '.' 
        · rw [if_pos hdot] at h
          rcases hsp2 : List.span Char.isDigit rest.tail with ⟨fs, rest2⟩
          rw [hsp2] at h
          dsimp only at h
          rcases hrec : tokenizeF fuel rest2 with e | toks
          · simp only [hrec, Bind.bind, Except.bind] at h
            exact Except.noConfusion h
          · simp only [hrec, Bind.bind, Except.bind, pure, Except.pure] at h
            cases h
            rcases List.mem_cons.mp hp with heq | hmem
            · cases heq
              exact pow_pos (by norm_num) _
            · exact ih rest2 toks hrec p hmem
        · rw [if_neg hdot] at h
          rcases hrec : tokenizeF fuel rest with e | toks
          · simp only [hrec, Bind.bind, Except.bind] at h
            exact Except.noConfusion h
          · simp only [hrec, Bind.bind, Except.bind, pure, Except.pure] at h
            cases h
            rcases List.mem_cons.mp hp with heq | hmem
            · cases heq
              trivial
            · exact ih rest toks hrec p hmem
      rw [if_neg h8] at h
      by_cases h9 : c.isAlpha = true
      · rw [if_pos h9] at h
        rcases hsp : List.span isIdentChar (c :: cs) with ⟨ident, rest⟩
        rw [hsp] at h
        dsimp only at h
        rcases hrec : tokenizeF fuel rest with e | toks
        · simp only [hrec, Bind.bind, Except.bind] at h
          exact Except.noConfusion h
        · simp only [hrec, Bind.bind, Except.bind, pure, Except.pure] at h
          cases h
          rcases List.mem_cons.mp hp with heq | hmem
          · cases heq
          · exact ih rest toks hrec p hmem
      · rw [if_neg h9] at h
        exact Except.noConfusion h

theorem parser_wfLits : ∀ fuel : Nat,
    (∀ ts e rest, parseFactor fuel ts = .ok (e, rest) →
      (∀ p, Tok.num p ∈ ts → p.wf) →
      e.wfLits ∧ ∀ p, Tok.num p ∈ rest → p.wf) ∧
    (∀ ts e rest, parseTerm fuel ts = .ok (e, rest) →
      (∀ p, Tok.num p ∈ ts → p.wf) →
      e.wfLits ∧ ∀ p, Tok.num p ∈ rest → p.wf) ∧
    (∀ acc ts e rest, parseTermTail fuel acc ts = .ok (e, rest) →
      acc.wfLits → (∀ p, Tok.num p ∈ ts → p.wf) →
      e.wfLits ∧ ∀ p, Tok.num p ∈ rest → p.wf) ∧
    (∀ ts e rest, parseExpr fuel ts = .ok (e, rest) →
      (∀ p, Tok.num p ∈ ts → p.wf) →
      e.wfLits ∧ ∀ p, Tok.num p ∈ rest → p.wf) ∧
    (∀ acc ts e rest, parseExprTail fuel acc ts = .ok (e, rest) →
      acc.wfLits → (∀ p, Tok.num p ∈ ts → p.wf) →
      e.wfLits ∧ ∀ p, Tok.num p ∈ rest → p.wf) := by
  intro fuel
  induction fuel with
  | zero =>
    refine ⟨?_, ?_, ?_, ?_, ?_⟩
    · intro ts e rest h
      rw [parseFactor] at h
      exact Except.noConfusion h
    · intro ts e rest h
      rw [parseTerm] at h
      exact Except.noConfusion h
    · intro acc ts e rest h
      rw [parseTermTail] at h
      exact Except.noConfusion h
    · intro ts e rest h
      rw [parseExpr] at h
      exact Except.noConfusion h
    · intro acc ts e rest h
      rw [parseExprTail] at h
      exact Except.noConfusion h
  | succ fuel ih =>
    obtain ⟨ihF, ihT, ihTT, ihE, ihET⟩ := ih
    refine ⟨?_, ?_, ?_, ?_, ?_⟩
    · -- parseFactor
      intro ts e rest h hwf
      cases ts with
      | nil =>
        simp only [parseFactor] at h
        exact Except.noConfusion h
      | cons t ts2 =>
        have hwf2 : ∀ p, Tok.num p ∈ ts2 → p.wf :=
          fun p hp => hwf p (List.mem_cons_of_mem _ hp)
        cases t with
        | num q =>
          simp only [parseFactor] at h
          cases h
          exact ⟨hwf q (List.mem_cons_self _ _), hwf2⟩
        | name nm =>
          simp only [parseFactor] at h
          cases h
          exact ⟨trivial, hwf2⟩
        | minus =>
          simp only [parseFactor] at h
          rcases hf : parseFactor fuel ts2 with er | ⟨e1, r1⟩
          · rw [hf] at h
            simp only [Bind.bind, Except.bind] at h
            exact Except.noConfusion h
          · rw [hf] at h
            simp only [Bind.bind, Except.bind] at h
            obtain ⟨hw1, hwr⟩ := ihF ts2 e1 r1 hf hwf2
            cases h
            exact ⟨hw1, hwr⟩
        | lparen =>
          simp only [parseFactor] at h
          rcases hf : parseExpr fuel ts2 with er | ⟨e1, r1⟩
          · rw [hf] at h
            simp only [Bind.bind, Except.bind] at h
            exact Except.noConfusion h
          · rw [hf] at h
            simp only [Bind.bind, Except.bind] at h
            obtain ⟨hw1, hwr1⟩ := ihE ts2 e1 r1 hf hwf2
            cases r1 with
            | nil => exact Except.noConfusion h
            | cons rt rts =>
              cases rt with
              | rparen =>
                cases h
                exact ⟨hw1, fun p hp => hwr1 p (List.mem_cons_of_mem _ hp)⟩
              | num q => exact Except.noConfusion h
              | name nm => exact Except.noConfusion h
              | plus => exact Except.noConfusion h
              | minus => exact Except.noConfusion h
              | star => exact Except.noConfusion h
              | slash => exact Except.noConfusion h
              | lparen => exact Except.noConfusion h
        | plus =>
          simp only [parseFactor] at h
          exact Except.noConfusion h
        | star =>
          simp only [parseFactor] at h
          exact Except.noConfusion h
        | slash =>
          simp only [parseFactor] at h
          exact Except.noConfusion h
        | rparen =>
          simp only [parseFactor] at h
          exact Except.noConfusion h
    · -- parseTerm
      intro ts e rest h hwf
      simp only [parseTerm] at h
      rcases hf : parseFactor fuel ts with er | ⟨e1, r1⟩
      · rw [hf] at h
        simp only [Bind.bind, Except.bind] at h
        exact Except.noConfusion h
      · rw [hf] at h
        simp only [Bind.bind, Except.bind] at h
        obtain ⟨hw1, hwr1⟩ := ihF ts e1 r1 hf hwf
        exact ihTT e1 r1 e rest h hw1 hwr1
    · -- parseTermTail
      intro acc ts e rest h hacc hwf
      cases ts with
      | nil =>
        simp only [parseTermTail] at h
        cases h
        exact ⟨hacc, hwf⟩
      | cons t ts2 =>
        have hwf2 : ∀ p, Tok.num p ∈ ts2 → p.wf :=
          fun p hp => hwf p (List.mem_cons_of_mem _ hp)
        cases t with
        | star =>
          simp only [parseTermTail] at h
          rcases hf : parseFactor fuel ts2 with er | ⟨e1, r1⟩
          · rw [hf] at h
            simp only [Bind.bind, Except.bind] at h
            exact Except.noConfusion h
          · rw [hf] at h
            simp only [Bind.bind, Except.bind] at h
            obtain ⟨hw1, hwr1⟩ := ihF ts2 e1 r1 hf hwf2
            exact ihTT (Expr.mul acc e1) r1 e rest h ⟨hacc, hw1⟩ hwr1
        | slash =>
          simp only [parseTermTail] at h
          rcases hf : parseFactor fuel ts2 with er | ⟨e1, r1⟩
          · rw [hf] at h
            simp only [Bind.bind, Except.bind] at h
            exact Except.noConfusion h
          · rw [hf] at h
            simp only [Bind.bind, Except.bind] at h
            obtain ⟨hw1, hwr1⟩ := ihF ts2 e1 r1 hf hwf2
            exact ihTT (Expr.div acc e1) r1 e rest h ⟨hacc, hw1⟩ hwr1
        | num q =>
          simp only [parseTermTail] at h
          cases h
          exact ⟨hacc, hwf⟩
        | name nm =>
          simp only [parseTermTail] at h
          cases h
          exact ⟨hacc, hwf⟩
        | plus =>
          simp only [parseTermTail] at h
          cases h
          exact ⟨hacc, hwf⟩
        | minus =>
          simp only [parseTermTail] at h
          cases h
          exact ⟨hacc, hwf⟩
        | lparen =>
          simp only [parseTermTail] at h
          cases h
          exact ⟨hacc, hwf⟩
        | rparen =>
          simp only [parseTermTail] at h
          cases h
          exact ⟨hacc, hwf⟩
    · -- parseExpr
      intro ts e rest h hwf
      simp only [parseExpr] at h
      rcases hf : parseTerm fuel ts with er | ⟨e1, r1⟩
      · rw [hf] at h
        simp only [Bind.bind, Except.bind] at h
        exact Except.noConfusion h
      · rw [hf] at h
        simp only [Bind.bind, Except.bind] at h
        obtain ⟨hw1, hwr1⟩ := ihT ts e1 r1 hf hwf
        exact ihET e1 r1 e rest h hw1 hwr1
    · -- parseExprTail
      intro acc ts e rest h hacc hwf
      cases ts with
      | nil =>
        simp only [parseExprTail] at h
        cases h
        exact ⟨hacc, hwf⟩
      | cons t ts2 =>
        have hwf2 : ∀ p, Tok.num p ∈ ts2 → p.wf :=
          fun p hp => hwf p (List.mem_cons_of_mem _ hp)
        cases t with
        | plus =>
          simp only [parseExprTail] at h
          rcases hf : parseTerm fuel ts2 with er | ⟨e1, r1⟩
          · rw [hf] at h
            simp only [Bind.bind, Except.bind] at h
            exact Except.noConfusion h
          · rw [hf] at h
            simp only [Bind.bind, Except.bind] at h
            obtain ⟨hw1, hwr1⟩ := ihT ts2 e1 r1 hf hwf2
            exact ihET (Expr.add acc e1) r1 e rest h ⟨hacc, hw1⟩ hwr1
        | minus =>
          simp only [parseExprTail] at h
          rcases hf : parseTerm fuel ts2 with er | ⟨e1, r1⟩
          · rw [hf] at h
            simp only [Bind.bind, Except.bind] at h
            exact Except.noConfusion h
          · rw [hf] at h
            simp only [Bind.bind, Except.bind] at h
            obtain ⟨hw1, hwr1⟩ := ihT ts2 e1 r1 hf hwf2
            exact ihET (Expr.sub acc e1) r1 e rest h ⟨hacc, hw1⟩ hwr1
        | num q =>
          simp only [parseExprTail] at h
          cases h
          exact ⟨hacc, hwf⟩
        | name nm =>
          simp only [parseExprTail] at h
          cases h
          exact ⟨hacc, hwf⟩
        | star =>
          simp only [parseExprTail] at h
          cases h
          exact ⟨hacc, hwf⟩
        | slash =>
          simp only [parseExprTail] at h
          cases h
          exact ⟨hacc, hwf⟩
        | lparen =>
          simp only [parseExprTail] at h
          cases h
          exact ⟨hacc, hwf⟩
        | rparen =>
          simp only [parseExprTail] at h
          cases h
          exact ⟨hacc, hwf⟩

/-- Every expression produced by the parser has well-formed literals. -/
theorem parse_wfLits {s : List Char} {e : Expr} (h : parseExprString s = .ok e) :
    e.wfLits := by
  simp only [parseExprString] at h
  rcases ht : tokenize s with er | ts
  · rw [ht] at h
    simp only [Bind.bind, Except.bind] at h
    exact Except.noConfusion h
  · rw [ht] at h
    simp only [Bind.bind, Except.bind] at h
    rcases hp : parseExpr (10 * ts.length + 10) ts with er | ⟨e1, r1⟩
    · rw [hp] at h
      simp only [Bind.bind, Except.bind] at h
      exact Except.noConfusion h
    · rw [hp] at h
      simp only [Bind.bind, Except.bind] at h
      have hwf : ∀ p, Tok.num p ∈ ts → p.wf := tokenizeF_wf (s.length + 1) s ts ht
      obtain ⟨hw1, -⟩ := (parser_wfLits (10 * ts.length + 10)).2.2.2.1 ts e1 r1 hp hwf
      cases r1 with
      | nil =>
        cases h
        exact hw1
      | cons x xs => exact Except.noConfusion h

/-! ### Dot-product algebra for the solvability invariant -/

theorem dotQ_cons (x : PyNum) (xs : List PyNum) (k : Int) (ks : List Int) :
    dotQ (x :: xs) (k :: ks) = x.toQ * (k : ℚ) + dotQ xs ks := by
  simp [dotQ]

theorem dotQ_congr_toQ : ∀ {l1 l2 : List PyNum},
    l1.map PyNum.toQ = l2.map PyNum.toQ → ∀ s, dotQ l1 s = dotQ l2 s := by
  intro l1
  induction l1 with
  | nil =>
    intro l2 h s
    cases l2 with
    | nil => rfl
    | cons y ys => simp at h
  | cons x xs ih =>
    intro l2 h s
    cases l2 with
    | nil => simp at h
    | cons y ys =>
      simp only [List.map_cons, List.cons.injEq] at h
      cases s with
      | nil => rfl
      | cons k ks =>
        rw [dotQ_cons, dotQ_cons, h.1, ih h.2 ks]

theorem dotQ_add : ∀ (l1 l2 : List PyNum) (s : List Int),
    (∀ x ∈ l1, x.wf) → (∀ x ∈ l2, x.wf) → l1.length = l2.length →
    dotQ (List.zipWith PyNum.add l1 l2) s = dotQ l1 s + dotQ l2 s := by
  intro l1
  induction l1 with
  | nil =>
    intro l2 s h1 h2 hlen
    obtain rfl : l2 = [] := List.length_eq_zero.mp hlen.symm
    simp [dotQ]
  | cons x xs ih =>
    intro l2 s h1 h2 hlen
    cases l2 with
    | nil => simp at hlen
    | cons y ys =>
      cases s with
      | nil => simp [dotQ]
      | cons k ks =>
        have hx := h1 x (List.mem_cons_self _ _)
        have hy := h2 y (List.mem_cons_self _ _)
        rw [List.zipWith_cons_cons, dotQ_cons, dotQ_cons, dotQ_cons,
          (PyNum.add_toQ hx hy).1,
          ih ys ks (fun a ha => h1 a (List.mem_cons_of_mem _ ha))
            (fun a ha => h2 a (List.mem_cons_of_mem _ ha)) (by simpa using hlen)]
        ring

theorem dotQ_sub : ∀ (l1 l2 : List PyNum) (s : List Int),
    (∀ x ∈ l1, x.wf) → (∀ x ∈ l2, x.wf) → l1.length = l2.length →
    dotQ (List.zipWith PyNum.sub l1 l2) s = dotQ l1 s - dotQ l2 s := by
  intro l1
  induction l1 with
  | nil =>
    intro l2 s h1 h2 hlen
    obtain rfl : l2 = [] := List.length_eq_zero.mp hlen.symm
    simp [dotQ]
  | cons x xs ih =>
    intro l2 s h1 h2 hlen
    cases l2 with
    | nil => simp at hlen
    | cons y ys =>
      cases s with
      | nil => simp [dotQ]
      | cons k ks =>
        have hx := h1 x (List.mem_cons_self _ _)
        have hy := h2 y (List.mem_cons_self _ _)
        rw [List.zipWith_cons_cons, dotQ_cons, dotQ_cons, dotQ_cons,
          (PyNum.sub_toQ hx hy).1,
          ih ys ks (fun a ha => h1 a (List.mem_cons_of_mem _ ha))
            (fun a ha => h2 a (List.mem_cons_of_mem _ ha)) (by simpa using hlen)]
        ring

theorem dotQ_smul : ∀ (l : List PyNum) (b : PyNum) (s : List Int),
    (∀ x ∈ l, x.wf) → b.wf →
    dotQ (l.map (fun x => x.mul b)) s = dotQ l s * b.toQ := by
  intro l
  induction l with
  | nil =>
    intro b s hl hb
    simp [dotQ]
  | cons x xs ih =>
    intro b s hl hb
    cases s with
    | nil => simp [dotQ]
    | cons k ks =>
      have hx := hl x (List.mem_cons_self _ _)
      rw [List.map_cons, dotQ_cons, dotQ_cons, (PyNum.mul_toQ hx hb).1,
        ih b ks (fun a ha => hl a (List.mem_cons_of_mem _ ha)) hb]
      ring

theorem dotQ_sdiv : ∀ (l : List PyNum) (b : PyNum) (s : List Int),
    (∀ x ∈ l, x.wf) → b.wf → b.toQ ≠ 0 →
    dotQ (l.map (fun x => x.div b)) s = dotQ l s / b.toQ := by
  intro l
  induction l with
  | nil =>
    intro b s hl hb hz
    simp [dotQ]
  | cons x xs ih =>
    intro b s hl hb hz
    cases s with
    | nil => simp [dotQ]
    | cons k ks =>
      have hx := hl x (List.mem_cons_self _ _)
      rw [List.map_cons, dotQ_cons, dotQ_cons, (PyNum.div_toQ hx hb hz).1,
        ih b ks (fun a ha => hl a (List.mem_cons_of_mem _ ha)) hb hz]
      ring

theorem wf_zipWith (f : PyNum → PyNum → PyNum)
    (hf : ∀ a b, a.wf → b.wf → (f a b).wf) :
    ∀ (l1 l2 : List PyNum), (∀ x ∈ l1, x.wf) → (∀ x ∈ l2, x.wf) →
      ∀ x ∈ List.zipWith f l1 l2, x.wf := by
  intro l1
  induction l1 with
  | nil =>
    intro l2 h1 h2 x hx
    simp at hx
  | cons a as ih =>
    intro l2 h1 h2 x hx
    cases l2 with
    | nil => simp at hx
    | cons b bs =>
      rw [List.zipWith_cons_cons] at hx
      rcases List.mem_cons.mp hx with rfl | hx
      · exact hf a b (h1 a (List.mem_cons_self _ _)) (h2 b (List.mem_cons_self _ _))
      · exact ih bs (fun y hy => h1 y (List.mem_cons_of_mem _ hy))
          (fun y hy => h2 y (List.mem_cons_of_mem _ hy)) x hx

theorem wf_map (f : PyNum → PyNum) (hf : ∀ a, a.wf → (f a).wf)
    (l : List PyNum) (hl : ∀ x ∈ l, x.wf) : ∀ x ∈ l.map f, x.wf := by
  intro x hx
  obtain ⟨y, hy, rfl⟩ := List.mem_map.mp hx
  exact hf y (hl y hy)

/-! ### The two domains compute the same linear combination

A successful row-domain evaluation is a linear combination of the
coefficient rows with row-free scalar factors; the scalar-domain run of the
same tree applies the identical combination to the augmented entries.  If
every augmented entry is the dot product of its coefficient row with a
vector `s`, the scalar result is therefore the dot product of the row
result with `s` — the exact sense in which an accepted transformation
keeps the augmented column faithful to the coefficients. -/

theorem eval_dot (vals : List (List PyNum)) (outs : List PyNum) (size : Nat)
    (s : List Int)
    (hrows : ∀ i < size, (vals.getD i []).length = size)
    (hvwf : ∀ i < size, ∀ x ∈ vals.getD i [], x.wf)
    (howf : ∀ i < size, (outs.getD i (.int 0)).wf)
    (hinv : ∀ i < size, (outs.getD i (.int 0)).toQ = dotQ (vals.getD i []) s) :
    ∀ e : Expr, e.wfLits →
      (∀ p, evalRow vals size e = .ok (.num p) →
        p.wf ∧ evalScalar outs size e = .ok p) ∧
      (∀ l, evalRow vals size e = .ok (.row l) →
        (∀ x ∈ l, x.wf) ∧
          ∃ p, evalScalar outs size e = .ok p ∧ p.wf ∧ p.toQ = dotQ l s) := by
  intro e
  induction e with
  | num q =>
    intro hLit
    refine ⟨?_, ?_⟩
    · intro p hp
      obtain rfl : q = p := by simpa [evalRow] using hp
      exact ⟨hLit, rfl⟩
    · intro l hl
      simp [evalRow] at hl
  | name nm =>
    intro hLit
    refine ⟨?_, ?_⟩
    · intro p hp
      rcases hlk : lookupRef size nm with _ | i <;> simp [evalRow, hlk] at hp
    · intro l hl
      rcases hlk : lookupRef size nm with _ | i
      · simp [evalRow, hlk] at hl
      · simp only [evalRow, hlk] at hl
        have hi : i < size := lookupRef_lt hlk
        obtain rfl : vals.getD i [] = l := by simpa using hl
        exact ⟨hvwf i hi, ⟨outs.getD i (.int 0), by simp [evalScalar, hlk],
          howf i hi, hinv i hi⟩⟩
  | neg e ih =>
    intro hLit
    refine ⟨?_, ?_⟩
    · intro p hp
      rcases h1 : evalRow vals size e with er | v
      · simp [evalRow, h1, Bind.bind, Except.bind] at hp
      · rcases v with q | l0
        · simp only [evalRow, h1, Bind.bind, Except.bind] at hp
          obtain rfl : q.neg = p := by simpa using hp
          obtain ⟨hqwf, hqs⟩ := (ih hLit).1 q h1
          exact ⟨(PyNum.neg_toQ hqwf).2, by
            simp [evalScalar, hqs, Bind.bind, Except.bind]⟩
        · simp [evalRow, h1, Bind.bind, Except.bind] at hp
    · intro l hl
      rcases h1 : evalRow vals size e with er | v
      · simp [evalRow, h1, Bind.bind, Except.bind] at hl
      · rcases v with q | l0 <;> simp [evalRow, h1, Bind.bind, Except.bind] at hl
  | add e1 e2 ih1 ih2 =>
    intro hLit
    refine ⟨?_, ?_⟩
    · intro p hp
      rcases h1 : evalRow vals size e1 with er | v1
      · simp [evalRow, h1, Bind.bind, Except.bind] at hp
      · rcases h2 : evalRow vals size e2 with er | v2
        · cases v1 <;> simp [evalRow, h1, h2, Bind.bind, Except.bind] at hp
        · cases v1 with
          | num a =>
            cases v2 with
            | num b =>
              simp only [evalRow, h1, h2, Bind.bind, Except.bind] at hp
              obtain rfl : a.add b = p := by simpa using hp
              obtain ⟨haw, has⟩ := (ih1 hLit.1).1 a h1
              obtain ⟨hbw, hbs⟩ := (ih2 hLit.2).1 b h2
              exact ⟨(PyNum.add_toQ haw hbw).2, by
                simp [evalScalar, has, hbs, Bind.bind, Except.bind]⟩
            | row l2 => simp [evalRow, h1, h2, Bind.bind, Except.bind] at hp
          | row l1 =>
            cases v2 <;> simp [evalRow, h1, h2, Bind.bind, Except.bind] at hp
    · intro l hl
      rcases h1 : evalRow vals size e1 with er | v1
      · simp [evalRow, h1, Bind.bind, Except.bind] at hl
      · rcases h2 : evalRow vals size e2 with er | v2
        · cases v1 <;> simp [evalRow, h1, h2, Bind.bind, Except.bind] at hl
        · cases v1 with
          | num a =>
            cases v2 <;> simp [evalRow, h1, h2, Bind.bind, Except.bind] at hl
          | row l1 =>
            cases v2 with
            | num b => simp [evalRow, h1, h2, Bind.bind, Except.bind] at hl
            | row l2 =>
              simp only [evalRow, h1, h2, Bind.bind, Except.bind] at hl
              obtain rfl : List.zipWith PyNum.add l1 l2 = l := by simpa using hl
              obtain ⟨hw1, p1, hs1, hp1w, hp1d⟩ := (ih1 hLit.1).2 l1 h1
              obtain ⟨hw2, p2, hs2, hp2w, hp2d⟩ := (ih2 hLit.2).2 l2 h2
              obtain ⟨-, hlen1, -⟩ := (eval_success vals outs size hrows e1).2 l1 h1
              obtain ⟨-, hlen2, -⟩ := (eval_success vals outs size hrows e2).2 l2 h2
              refine ⟨wf_zipWith PyNum.add (fun a b ha hb => (PyNum.add_toQ ha hb).2)
                l1 l2 hw1 hw2, ⟨p1.add p2, ?_, (PyNum.add_toQ hp1w hp2w).2, ?_⟩⟩
              · simp [evalScalar, hs1, hs2, Bind.bind, Except.bind]
              · rw [(PyNum.add_toQ hp1w hp2w).1, hp1d, hp2d,
                  dotQ_add l1 l2 s hw1 hw2 (by rw [hlen1, hlen2])]
  | sub e1 e2 ih1 ih2 =>
    intro hLit
    refine ⟨?_, ?_⟩
    · intro p hp
      rcases h1 : evalRow vals size e1 with er | v1
      · simp [evalRow, h1, Bind.bind, Except.bind] at hp
      · rcases h2 : evalRow vals size e2 with er | v2
        · cases v1 <;> simp [evalRow, h1, h2, Bind.bind, Except.bind] at hp
        · cases v1 with
          | num a =>
            cases v2 with
            | num b =>
              simp only [evalRow, h1, h2, Bind.bind, Except.bind] at hp
              obtain rfl : a.sub b = p := by simpa using hp
              obtain ⟨haw, has⟩ := (ih1 hLit.1).1 a h1
              obtain ⟨hbw, hbs⟩ := (ih2 hLit.2).1 b h2
              exact ⟨(PyNum.sub_toQ haw hbw).2, by
                simp [evalScalar, has, hbs, Bind.bind, Except.bind]⟩
            | row l2 => simp [evalRow, h1, h2, Bind.bind, Except.bind] at hp
          | row l1 =>
            cases v2 <;> simp [evalRow, h1, h2, Bind.bind, Except.bind] at hp
    · intro l hl
      rcases h1 : evalRow vals size e1 with er | v1
      · simp [evalRow, h1, Bind.bind, Except.bind] at hl
      · rcases h2 : evalRow vals size e2 with er | v2
        · cases v1 <;> simp [evalRow, h1, h2, Bind.bind, Except.bind] at hl
        · cases v1 with
          | num a =>
            cases v2 <;> simp [evalRow, h1, h2, Bind.bind, Except.bind] at hl
          | row l1 =>
            cases v2 with
            | num b => simp [evalRow, h1, h2, Bind.bind, Except.bind] at hl
            | row l2 =>
              simp only [evalRow, h1, h2, Bind.bind, Except.bind] at hl
              obtain rfl : List.zipWith PyNum.sub l1 l2 = l := by simpa using hl
              obtain ⟨hw1, p1, hs1, hp1w, hp1d⟩ := (ih1 hLit.1).2 l1 h1
              obtain ⟨hw2, p2, hs2, hp2w, hp2d⟩ := (ih2 hLit.2).2 l2 h2
              obtain ⟨-, hlen1, -⟩ := (eval_success vals outs size hrows e1).2 l1 h1
              obtain ⟨-, hlen2, -⟩ := (eval_success vals outs size hrows e2).2 l2 h2
              refine ⟨wf_zipWith PyNum.sub (fun a b ha hb => (PyNum.sub_toQ ha hb).2)
                l1 l2 hw1 hw2, ⟨p1.sub p2, ?_, (PyNum.sub_toQ hp1w hp2w).2, ?_⟩⟩
              · simp [evalScalar, hs1, hs2, Bind.bind, Except.bind]
              · rw [(PyNum.sub_toQ hp1w hp2w).1, hp1d, hp2d,
                  dotQ_sub l1 l2 s hw1 hw2 (by rw [hlen1, hlen2])]
  | mul e1 e2 ih1 ih2 =>
    intro hLit
    refine ⟨?_, ?_⟩
    · intro p hp
      rcases h1 : evalRow vals size e1 with er | v1
      · simp [evalRow, h1, Bind.bind, Except.bind] at hp
      · rcases h2 : evalRow vals size e2 with er | v2
        · cases v1 <;> simp [evalRow, h1, h2, Bind.bind, Except.bind] at hp
        · cases v1 with
          | num a =>
            cases v2 with
            | num b =>
              simp only [evalRow, h1, h2, Bind.bind, Except.bind] at hp
              obtain rfl : a.mul b = p := by simpa using hp
              obtain ⟨haw, has⟩ := (ih1 hLit.1).1 a h1
              obtain ⟨hbw, hbs⟩ := (ih2 hLit.2).1 b h2
              exact ⟨(PyNum.mul_toQ haw hbw).2, by
                simp [evalScalar, has, hbs, Bind.bind, Except.bind]⟩
            | row l2 => simp [evalRow, h1, h2, Bind.bind, Except.bind] at hp
          | row l1 =>
            cases v2 <;> simp [evalRow, h1, h2, Bind.bind, Except.bind] at hp
    · intro l hl
      rcases h1 : evalRow vals size e1 with er | v1
      · simp [evalRow, h1, Bind.bind, Except.bind] at hl
      · rcases h2 : evalRow vals size e2 with er | v2
        · cases v1 <;> simp [evalRow, h1, h2, Bind.bind, Except.bind] at hl
        · cases v1 with
          | num a =>
            cases v2 with
            | num b => simp [evalRow, h1, h2, Bind.bind, Except.bind] at hl
            | row l2 =>
              simp only [evalRow, h1, h2, Bind.bind, Except.bind] at hl
              obtain rfl : l2.map (fun x => x.mul a) = l := by simpa using hl
              obtain ⟨haw, has⟩ := (ih1 hLit.1).1 a h1
              obtain ⟨hw2, p2, hs2, hp2w, hp2d⟩ := (ih2 hLit.2).2 l2 h2
              refine ⟨wf_map _ (fun x hx => (PyNum.mul_toQ hx haw).2) l2 hw2,
                ⟨a.mul p2, ?_, (PyNum.mul_toQ haw hp2w).2, ?_⟩⟩
              · simp [evalScalar, has, hs2, Bind.bind, Except.bind]
              · rw [(PyNum.mul_toQ haw hp2w).1, hp2d, dotQ_smul l2 a s hw2 haw]
                ring
          | row l1 =>
            cases v2 with
            | num b =>
              simp only [evalRow, h1, h2, Bind.bind, Except.bind] at hl
              obtain rfl : l1.map (fun x => x.mul b) = l := by simpa using hl
              obtain ⟨hw1, p1, hs1, hp1w, hp1d⟩ := (ih1 hLit.1).2 l1 h1
              obtain ⟨hbw, hbs⟩ := (ih2 hLit.2).1 b h2
              refine ⟨wf_map _ (fun x hx => (PyNum.mul_toQ hx hbw).2) l1 hw1,
                ⟨p1.mul b, ?_, (PyNum.mul_toQ hp1w hbw).2, ?_⟩⟩
              · simp [evalScalar, hs1, hbs, Bind.bind, Except.bind]
              · rw [(PyNum.mul_toQ hp1w hbw).1, hp1d, dotQ_smul l1 b s hw1 hbw]
            | row l2 => simp [evalRow, h1, h2, Bind.bind, Except.bind] at hl
  | div e1 e2 ih1 ih2 =>
    intro hLit
    refine ⟨?_, ?_⟩
    · intro p hp
      rcases h1 : evalRow vals size e1 with er | v1
      · simp [evalRow, h1, Bind.bind, Except.bind] at hp
      · rcases h2 : evalRow vals size e2 with er | v2
        · cases v1 <;> simp [evalRow, h1, h2, Bind.bind, Except.bind] at hp
        · cases v1 with
          | num a =>
            cases v2 with
            | num b =>
              rcases hz : b.isZero with _ | _
              · simp only [evalRow, h1, h2, hz, Bind.bind, Except.bind] at hp
                obtain rfl : a.div b = p := by simpa using hp
                obtain ⟨haw, has⟩ := (ih1 hLit.1).1 a h1
                obtain ⟨hbw, hbs⟩ := (ih2 hLit.2).1 b h2
                have hbz : b.toQ ≠ 0 := fun hq =>
                  by simp [(PyNum.isZero_iff hbw).mpr hq] at hz
                exact ⟨(PyNum.div_toQ haw hbw hbz).2, by
                  simp [evalScalar, has, hbs, hz, Bind.bind, Except.bind]⟩
              · simp [evalRow, h1, h2, hz, Bind.bind, Except.bind] at hp
            | row l2 => simp [evalRow, h1, h2, Bind.bind, Except.bind] at hp
          | row l1 =>
            cases v2 with
            | num b =>
              cases l1 with
              | nil => simp [evalRow, h1, h2, Bind.bind, Except.bind] at hp
              | cons x xs =>
                rcases hz : b.isZero with _ | _ <;>
                  simp [evalRow, h1, h2, hz, Bind.bind, Except.bind] at hp
            | row l2 => simp [evalRow, h1, h2, Bind.bind, Except.bind] at hp
    · intro l hl
      rcases h1 : evalRow vals size e1 with er | v1
      · simp [evalRow, h1, Bind.bind, Except.bind] at hl
      · rcases h2 : evalRow vals size e2 with er | v2
        · cases v1 <;> simp [evalRow, h1, h2, Bind.bind, Except.bind] at hl
        · cases v1 with
          | num a =>
            cases v2 with
            | num b =>
              rcases hz : b.isZero with _ | _ <;>
                simp [evalRow, h1, h2, hz, Bind.bind, Except.bind] at hl
            | row l2 => simp [evalRow, h1, h2, Bind.bind, Except.bind] at hl
          | row l1 =>
            cases v2 with
            | num b =>
              cases l1 with
              | nil =>
                obtain ⟨hpos, hlen1, -⟩ :=
                  (eval_success vals outs size hrows e1).2 [] h1
                simp at hlen1
                omega
              | cons x xs =>
                rcases hz : b.isZero with _ | _
                · simp only [evalRow, h1, h2, hz, Bind.bind, Except.bind] at hl
                  obtain rfl : (x :: xs).map (fun y => y.div b) = l := by
                    simpa using hl
                  obtain ⟨hw1, p1, hs1, hp1w, hp1d⟩ := (ih1 hLit.1).2 (x :: xs) h1
                  obtain ⟨hbw, hbs⟩ := (ih2 hLit.2).1 b h2
                  have hbz : b.toQ ≠ 0 := fun hq =>
                    by simp [(PyNum.isZero_iff hbw).mpr hq] at hz
                  refine ⟨wf_map _ (fun y hy => (PyNum.div_toQ hy hbw hbz).2)
                    (x :: xs) hw1,
                    ⟨p1.div b, ?_, (PyNum.div_toQ hp1w hbw hbz).2, ?_⟩⟩
                  · simp [evalScalar, hs1, hbs, hz, Bind.bind, Except.bind]
                  · rw [(PyNum.div_toQ hp1w hbw hbz).1, hp1d,
                      dotQ_sdiv (x :: xs) b s hw1 hbw hbz]
                · simp [evalRow, h1, h2, hz, Bind.bind, Except.bind] at hl
            | row l2 => simp [evalRow, h1, h2, Bind.bind, Except.bind] at hl

/-! ### Shape and solvability of generated matrices -/

theorem dotI_cons (x : Int) (xs : List Int) (k : Int) (ks : List Int) :
    dotI (x :: xs) (k :: ks) = x * k + dotI xs ks := by
  simp [dotI]

theorem dotQ_map_int : ∀ (row s : List Int),
    dotQ (row.map PyNum.int) s = ((dotI row s : Int) : ℚ) := by
  intro row
  induction row with
  | nil =>
    intro s
    simp [dotQ, dotI]
  | cons x xs ih =>
    intro s
    cases s with
    | nil => simp [dotQ, dotI]
    | cons k ks =>
      rw [List.map_cons, dotQ_cons, dotI_cons, ih ks]
      push_cast
      simp [PyNum.toQ]

theorem strategicZeroStep_shape {acc : List (List Int) × Rng} {i : Nat}
    (hlen : acc.1.length = 3) (hrow : ∀ row ∈ acc.1, row.length = 3) (hi : i < 3) :
    (strategicZeroStep acc i).1.length = 3 ∧
      ∀ row ∈ (strategicZeroStep acc i).1, row.length = 3 := by
  simp only [strategicZeroStep, randMilli, randint]
  split_ifs with hc
  · refine ⟨by simpa using hlen, ?_⟩
    intro row hrowmem
    rcases List.mem_or_eq_of_mem_set hrowmem with hm | rfl
    · exact hrow row hm
    · rw [List.length_set]
      have hilt : i < acc.1.length := by omega
      rw [List.getD_eq_getElem _ _ hilt]
      exact hrow _ (List.getElem_mem hilt)
  · exact ⟨hlen, hrow⟩

theorem strategicZeros_shape (vals : List (List Int)) (r : Rng)
    (hlen : vals.length = 3) (hrow : ∀ row ∈ vals, row.length = 3) :
    (strategicZeros vals r).1.length = 3 ∧
      ∀ row ∈ (strategicZeros vals r).1, row.length = 3 := by
  have main : ∀ (l : List Nat), (∀ i ∈ l, i < 3) → ∀ (acc : List (List Int) × Rng),
      acc.1.length = 3 → (∀ row ∈ acc.1, row.length = 3) →
      ((l.foldl strategicZeroStep acc).1.length = 3 ∧
        ∀ row ∈ (l.foldl strategicZeroStep acc).1, row.length = 3) := by
    intro l
    induction l with
    | nil =>
      intro _ acc h1 h2
      exact ⟨h1, h2⟩
    | cons i il ih =>
      intro hl acc h1 h2
      rw [List.foldl_cons]
      obtain ⟨h1a, h2a⟩ :=
        strategicZeroStep_shape h1 h2 (hl i (List.mem_cons_self _ _))
      exact ih (fun j hj => hl j (List.mem_cons_of_mem _ hj)) _ h1a h2a
  exact main (List.range 3) (fun i hi => List.mem_range.mp hi) (vals, r) hlen hrow

theorem drawSquare_shape {lo hi : Nat} {r : Rng} {vals : List (List Int)} {r2 : Rng}
    (h : drawSquare lo hi r = (vals, r2)) :
    vals.length = 3 ∧ ∀ row ∈ vals, row.length = 3 := by
  simp only [drawSquare, drawRow3, randint] at h
  obtain ⟨rfl, -⟩ : _ ∧ _ = r2 := by
    constructor
    · exact (congrArg Prod.fst h).symm
    · exact congrArg Prod.snd h
  refine ⟨rfl, ?_⟩
  intro row hr
  simp only [List.mem_cons, List.not_mem_nil, or_false] at hr
  rcases hr with rfl | rfl | rfl <;> rfl

theorem strategicZeros_shape2 {vals : List (List Int)} {r : Rng}
    {vals2 : List (List Int)} {r2 : Rng}
    (h : strategicZeros vals r = (vals2, r2))
    (hlen : vals.length = 3) (hrow : ∀ row ∈ vals, row.length = 3) :
    vals2.length = 3 ∧ ∀ row ∈ vals2, row.length = 3 := by
  obtain ⟨h1, h2⟩ := strategicZeros_shape vals r hlen hrow
  rw [h] at h1 h2
  exact ⟨h1, h2⟩

theorem generateParts_shape (d c : Int) (r : Rng) :
    ∃ values sol r1,
      generateParts d c r = ((values, sol, values.map (fun row => dotI row sol)), r1) ∧
        values.length = 3 ∧ (∀ row ∈ values, row.length = 3) ∧ sol.length = 3 := by
  simp only [generateParts]
  split_ifs with h1 h2
  · simp only [randint]
    refine ⟨_, _, _, rfl, rfl, ?_, rfl⟩
    intro row hr
    simp only [List.mem_cons, List.not_mem_nil, or_false] at hr
    rcases hr with rfl | rfl | rfl <;> rfl
  · rcases hds : drawSquare 1 6 r with ⟨vals0, r0⟩
    dsimp only
    rcases hsz : strategicZeros vals0 r0 with ⟨vals2, r2⟩
    dsimp only
    simp only [randint]
    obtain ⟨hdl, hdr⟩ := drawSquare_shape hds
    obtain ⟨hl2, hr2⟩ := strategicZeros_shape2 hsz hdl hdr
    exact ⟨_, _, _, rfl, hl2, hr2, rfl⟩
  · rcases hds : drawSquare 1 ((10 + (max 0 (min 100 d))).toNat) r with ⟨vals0, r0⟩
    dsimp only
    simp only [randint]
    obtain ⟨hdl, hdr⟩ := drawSquare_shape hds
    exact ⟨_, _, _, rfl, hdl, hdr, rfl⟩

theorem getD_map_lt {α β : Type} (l : List α) (f : α → β) (i : Nat) (d : β) (da : α)
    (h : i < l.length) : (l.map f).getD i d = f (l.getD i da) := by
  rw [List.getD_eq_getElem _ _ (by simpa using h), List.getElem_map,
    List.getD_eq_getElem _ _ h]

/-- Everything the generator guarantees about a matrix it returns: the
shape invariants, well-formed integer cells, and the solvability invariant
against the hidden solution vector of the run. -/
theorem generate_matrix_facts (d c : Int) (r : Rng) :
    ∀ m, (generate_matrix d c r).1 = .ok m →
      m.size = 3 ∧
      (∀ i < m.size, (m.values.getD i []).length = m.size) ∧
      (∀ i < m.size, ∀ x ∈ m.values.getD i [], x.wf) ∧
      (∀ i < m.size, (m.outputs.getD i (.int 0)).wf) ∧
      m.values.length = m.size ∧ m.outputs.length = m.size ∧
      (genSolution d c r).length = m.size ∧
      m.SolInv (genSolution d c r) := by
  intro m hm
  obtain ⟨values, sol, r1, hgp, hlen, hrow, hsol⟩ := generateParts_shape d c r
  have hgsol : genSolution d c r = sol := by simp [genSolution, hgp]
  simp only [generate_matrix, hgp] at hm
  simp only [Matrix.init] at hm
  split at hm
  · obtain rfl : _ = m := by injection hm
    dsimp only
    have hv : ∀ i, i < 3 →
        (List.map (fun row => List.map PyNum.int row) values).getD i []
          = List.map PyNum.int (values.getD i []) := by
      intro i hi
      exact getD_map_lt values _ i [] [] (by omega)
    have ho : ∀ i, i < 3 →
        (List.map PyNum.int (List.map (fun row => dotI row sol) values)).getD i (.int 0)
          = PyNum.int ((List.map (fun row => dotI row sol) values).getD i 0) := by
      intro i hi
      exact getD_map_lt _ PyNum.int i (.int 0) 0 (by simp [hlen]; omega)
    have ho2 : ∀ i, i < 3 →
        (List.map (fun row => dotI row sol) values).getD i 0
          = dotI (values.getD i []) sol := by
      intro i hi
      exact getD_map_lt values _ i 0 [] (by omega)
    refine ⟨rfl, ?_, ?_, ?_, by simp [hlen], by simp [hlen], by simp [hgsol, hsol], ?_⟩
    · intro i hi
      rw [hv i hi, List.length_map, List.getD_eq_getElem _ _ (by omega)]
      exact hrow _ (List.getElem_mem (by omega))
    · intro i hi x hx
      rw [hv i hi] at hx
      obtain ⟨n, -, rfl⟩ := List.mem_map.mp hx
      trivial
    · intro i hi
      rw [ho i hi]
      trivial
    · intro i hi
      rw [hgsol, ho i hi, ho2 i hi, hv i hi, dotQ_map_int]
      rfl
  · exfalso
    rename_i hcond
    exact hcond ⟨by simp [hlen], by simp [hlen]⟩

theorem parseHeader_target_lt {size : Nat} {s : String} {t : Nat} {rhs : List Char}
    (h : parseHeader size s = .ok (t, rhs)) : t < size := by
  simp only [parseHeader] at h
  split at h
  · split at h
    · split at h
      · split at h
        · rename_i k hk hcond
          obtain ⟨rfl, -⟩ : (k - 1).toNat = t ∧ _ = rhs := by
            constructor
            · injection h with h2
              exact congrArg Prod.fst h2
            · injection h with h2
              exact congrArg Prod.snd h2
          omega
        · exact Except.noConfusion h
      · exact Except.noConfusion h
    · exact Except.noConfusion h
  · exact Except.noConfusion h

/-- `update` preserves the structural representation invariants whatever it
does (reject the input, mutate partially, or succeed): the size is
unchanged, the outer list lengths are kept, and every coefficient row of
the result still has `size` entries.  Together with
`generate_matrix_facts` this shows that the row-length invariant assumed
by the atomicity and solvability theorems is established at generation
time and maintained across any sequence of `update` calls. -/
theorem update_preserves_struct (m : Matrix) (s : String)
    (hrows : ∀ i < m.size, (m.values.getD i []).length = m.size)
    (hvl : m.values.length = m.size) (hol : m.outputs.length = m.size) :
    (m.update s).1.size = m.size ∧
      (∀ i < m.size, (((m.update s).1.values).getD i []).length = m.size) ∧
      ((m.update s).1.values).length = m.size ∧
      ((m.update s).1.outputs).length = m.size := by
  rcases hph : parseHeader m.size s with e | ⟨target, rhs⟩
  · simp only [Matrix.update, hph]
    exact ⟨trivial, hrows, hvl, hol⟩
  · rcases hpe : parseExprString rhs with e | ast
    · simp only [Matrix.update, hph, hpe]
      exact ⟨trivial, hrows, hvl, hol⟩
    · rcases her : evalRow m.values m.size ast with e | v
      · simp only [Matrix.update, hph, hpe, her]
        exact ⟨trivial, hrows, hvl, hol⟩
      · rcases v with p | l
        · simp only [Matrix.update, hph, hpe, her]
          exact ⟨trivial, hrows, hvl, hol⟩
        · have ht : target < m.size := parseHeader_target_lt hph
          have hlen : l.length = m.size :=
            ((eval_success m.values m.outputs m.size hrows ast).2 l her).2.1
          have hsetrows : ∀ i < m.size,
              ((m.values.set target (cleanRow l)).getD i []).length = m.size := by
            intro i hi
            by_cases hit : i = target
            · rw [hit]
              have hlt : target < m.values.length := by omega
              simp [List.getD, List.getElem?_set_self, hlt, cleanRow, hlen]
            · rw [show (m.values.set target (cleanRow l)).getD i [] =
                  m.values.getD i [] by
                simp [List.getD, List.getElem?_set_ne (Ne.symm hit)]]
              exact hrows i hi
          rcases hes : evalScalar m.outputs m.size ast with e | p
          · simp only [Matrix.update, hph, hpe, her, hes]
            exact ⟨trivial, hsetrows, by simp [List.length_set, hvl], hol⟩
          · simp only [Matrix.update, hph, hpe, her, hes]
            exact ⟨trivial, hsetrows, by simp [List.length_set, hvl],
              by simp [List.length_set, hol]⟩

/-- Claim C4, amended: for every Matrix produced by `generate_matrix` (any
parameters, any ambient RNG stream) with hidden solution vector `s`,
`coefficients · s == augmented` holds exactly at generation time; and the
invariant is preserved by a successfully applied transformation whenever
the canonicalization of the written cells changes no value (no rounding
occurs).  A successful transformation whose results need rounding can
break the invariant: see `solvability_broken_by_rounding`. -/
theorem solvability_invariant :
    (∀ (d c : Int) (r : Rng) (m : Matrix),
      (generate_matrix d c r).1 = .ok m → m.SolInv (genSolution d c r)) ∧
    (∀ (m : Matrix) (s : List Int) (op : String) (t : Nat) (rhs : List Char)
        (ast : Expr) (l : List PyNum) (p : PyNum),
      (∀ i < m.size, (m.values.getD i []).length = m.size) →
      (∀ i < m.size, ∀ x ∈ m.values.getD i [], x.wf) →
      (∀ i < m.size, (m.outputs.getD i (.int 0)).wf) →
      m.values.length = m.size → m.outputs.length = m.size →
      m.SolInv s →
      parseHeader m.size op = .ok (t, rhs) →
      parseExprString rhs = .ok ast →
      evalRow m.values m.size ast = .ok (.row l) →
      evalScalar m.outputs m.size ast = .ok p →
      (∀ x ∈ l, (cleanNumber x).toQ = x.toQ) →
      (cleanNumber p).toQ = p.toQ →
      ((m.update op).1).SolInv s) := by
  constructor
  · intro d c r m hm
    exact (generate_matrix_facts d c r m hm).2.2.2.2.2.2.2
  · intro m s op t rhs ast l p hrows hvwf howf hvl hol hinv hph hpe her hes hcl hcp
    have hup : (m.update op).1 =
        { m with
            values := m.values.set t (cleanRow l),
            outputs := m.outputs.set t (cleanNumber p),
            moves_count := m.moves_count + 1 } := by
      simp only [Matrix.update, hph, hpe, her, hes]
    have ht : t < m.size := parseHeader_target_lt hph
    have hdot : p.toQ = dotQ l s := by
      obtain ⟨-, p2, hs2, -, hp2d⟩ :=
        (eval_dot m.values m.outputs m.size s hrows hvwf howf hinv ast
          (parse_wfLits hpe)).2 l her
      rw [hes] at hs2
      injection hs2 with hs2
      rw [← hs2] at hp2d
      exact hp2d
    have hclean : dotQ (cleanRow l) s = dotQ l s := by
      have hmap : (cleanRow l).map PyNum.toQ = l.map PyNum.toQ := by
        simp only [cleanRow, List.map_map]
        exact List.map_congr_left (fun x hx => hcl x hx)
      exact dotQ_congr_toQ hmap s
    rw [hup]
    intro i hi
    dsimp only at hi ⊢
    by_cases hit : i = t
    · subst hit
      rw [show (m.values.set i (cleanRow l)).getD i [] = cleanRow l by
          simp [List.getD, List.getElem?_set_self, show i < m.values.length by omega],
        show (m.outputs.set i (cleanNumber p)).getD i (.int 0) = cleanNumber p by
          simp [List.getD, List.getElem?_set_self, show i < m.outputs.length by omega]]
      rw [hcp, hclean, hdot]
    · rw [show (m.values.set t (cleanRow l)).getD i [] = m.values.getD i [] by
          simp [List.getD, List.getElem?_set_ne (Ne.symm hit)],
        show (m.outputs.set t (cleanNumber p)).getD i (.int 0) = m.outputs.getD i (.int 0) by
          simp [List.getD, List.getElem?_set_ne (Ne.symm hit)]]
      exact hinv i hi

/-- Counterexample to C4 as frozen: the generator run on stream `seqC`
produces `mC4` with hidden solution vector `[1, 2, 1]` and the invariant
holds at generation time; the transformation `R1 = R1 / 3` is then
successfully applied (`moveCount` is incremented), but canonicalization
rounds `1/3` to `0.33` in the coefficients while the augmented entry
`6/3 = 2` is exact, and `coefficients · s == augmented` fails afterwards:
row 0 becomes `[1, 0.33, 0.33]` with dot product `1.99 ≠ 2`. -/
theorem solvability_broken_by_rounding :
    (generate_matrix 0 100 ⟨seqC, 0⟩).1 = .ok mC4 ∧
    genSolution 0 100 ⟨seqC, 0⟩ = [1, 2, 1] ∧
    (mC4.update "R1 = R1 / 3").2 = none ∧
    ¬ ((mC4.update "R1 = R1 / 3").1).SolInv [1, 2, 1] := by
  refine ⟨by decide, by decide, by decide, ?_⟩
  intro hcon
  have hm : (mC4.update "R1 = R1 / 3").1 =
      ⟨3, [[.int 1, .float 33 100, .float 33 100],
           [.int 1, .int 1, .int 1], [.int 1, .int 1, .int 1]],
        [.int 2, .int 4, .int 4], 1⟩ := by decide
  rw [hm] at hcon
  have h0 := hcon 0 (by norm_num)
  simp only [List.getD, dotQ, PyNum.toQ, List.zipWith, List.sum] at h0
  norm_num at h0

/-- Witness for C4: the generation-time invariant instantiated on the
`seqC` run, and the preservation part instantiated on the rounding-free
transformation `R2 = R2 - R1` applied to `mC4`. -/
theorem solvability_invariant_witness :
    mC4.SolInv (genSolution 0 100 ⟨seqC, 0⟩) ∧
    ((mC4.update "R2 = R2 - R1").1).SolInv [1, 2, 1] := by
  have hgs : genSolution 0 100 ⟨seqC, 0⟩ = [1, 2, 1] := by decide
  have hbase := solvability_invariant.1 0 100 ⟨seqC, 0⟩ mC4 (by decide)
  refine ⟨hbase, ?_⟩
  refine solvability_invariant.2 mC4 [1, 2, 1] "R2 = R2 - R1" 1
    (String.data "R2 - R1") (Expr.sub (.name "R2") (.name "R1"))
    [.int (-2), .int 0, .int 0] (.int (-2))
    (by decide) (by decide) (by decide) (by decide) (by decide)
    (hgs ▸ hbase) rfl rfl rfl rfl ?_ rfl
  intro x hx
  simp only [List.mem_cons, List.not_mem_nil, or_false] at hx
  rcases hx with rfl | rfl | rfl <;> rfl

end GaussPuzzle
